import Mathlib

/-!
Shallow embedding of the IDR-design sequence-design core, and proofs of the
spec's claims about it.

Sources embedded (paths relative to the repository root):
* `src/idrdesigner/core/consts.py` — alphabet and residue categories;
* `src/idrdesigner/libs/libbasesfc/sequences.py` — `BaseExtendedSequence`,
  `BasePointMutation`, `BaseSeqRepr`, incremental cache maintenance;
* `src/idrdesigner/libs/libbasesfc/features.py` — `scd`, `custom_kappa`,
  `custom_omega` (full and incremental paths);
* `idr_design/feature_calculators/main.py` — `SequenceFeatureCalculator`
  batch runners and `DistanceCalculator`;
* `idr_design/design_models/iter_guess_model.py` — iterative driver,
  `BruteForce.next_round_seqs`, `RandMultiChange.next_round_seqs`;
* `idr_design/design_models/brute_force.py` — `BruteForce._get_next_seqs`;
* `idr_design/design_models/rand_mch.py` — `RandMultiChange.search_similar`.

Python floats are modelled as exact rationals; the float `math.sqrt` is kept
abstract as a function parameter (`rt : Nat → ℚ` on integer inputs,
`rtq : ℚ → ℚ` on rational inputs) because both the full and the incremental
code paths call the same square-root routine, so every equivalence below
holds for an arbitrary square-root — in particular for the IEEE one, hence
exactly (not merely within tolerance) on the real code paths modelled.
-/

/-- `AMINOACIDS` from `core/consts.py`: the fixed 20-letter amino-acid
alphabet, in the source's order. -/
def AMINOACIDS : List Char :=
  ['A', 'C', 'D', 'E', 'F', 'G', 'H', 'I', 'K', 'L',
   'M', 'N', 'P', 'Q', 'R', 'S', 'T', 'V', 'W', 'Y']

/-- Modelled from the spec: `idr_design/constants.py` (the module defining
`AA_STRING`) is not present under `src/`; the spec fixes the alphabet as "a
fixed 20-symbol amino-acid set", identical to `AMINOACIDS` of
`core/consts.py`, and every use site iterates over its characters. -/
def AA_STRING : List Char := AMINOACIDS

/-- `BINARY_CHARGE.get(c, 0)` from `core/consts.py`:
`{"D": -1, "E": -1, "K": 1, "R": 1}` with default `0`. -/
def binaryCharge (c : Char) : Int :=
  if c = 'D' then -1
  else if c = 'E' then -1
  else if c = 'K' then 1
  else if c = 'R' then 1
  else 0

/-- `CHARGED_RES` from `core/consts.py`: the keys of `BINARY_CHARGE`. -/
def CHARGED_RES : List Char := ['D', 'E', 'K', 'R']

/-- `CHARGED_RES + ["P"]`, the proline-or-charged category used by
`_init_procharged` and `custom_omega`. -/
def PROCHARGED_RES : List Char := CHARGED_RES ++ ['P']

/-- `BasePointMutation` from `libbasesfc/sequences.py`: a missense point
substitution `(start_aa, loc, end_aa)`. -/
structure BasePointMutation where
  startAa : Char
  loc : Nat
  endAa : Char
deriving DecidableEq, Repr

/-- The invariant `BasePointMutation.__init__` establishes: `loc` in bounds,
`start_aa` is the residue at `loc`, and the mutation is not null. -/
def validMutation (s : List Char) (m : BasePointMutation) : Prop :=
  m.loc < s.length ∧ s.getD m.loc ' ' = m.startAa ∧ m.startAa ≠ m.endAa

instance (s : List Char) (m : BasePointMutation) : Decidable (validMutation s m) := by
  unfold validMutation; infer_instance

/-- Applying a point mutation:
`prev_seq[: loc] + end_aa + prev_seq[loc + 1 :]`
(`BaseExtendedSequence.__init__`, mutation branch). -/
def applyMut (s : List Char) (loc : Nat) (endAa : Char) : List Char :=
  s.take loc ++ [endAa] ++ s.drop (loc + 1)

/-- Fresh builtin count `sum(1 for res in self.seq if res == aa)` from
`BaseExtendedSequence._set_builtin_count`, `seq is None` branch. -/
def builtinCount (s : List Char) (aa : Char) : Int :=
  ((s.filter (fun res => res = aa)).length : Int)

/-- Derived builtin count from `_set_builtin_count`, `seq is not None` branch:
start from the previous cached count and, if there is a mutation, add
`int(end_aa == aa) - int(start_aa == aa)`. -/
def setBuiltinCountDerived (prevCount : Int) (m : Option BasePointMutation)
    (aa : Char) : Int :=
  match m with
  | none => prevCount
  | some mu =>
      prevCount + (if mu.endAa = aa then 1 else 0)
        - (if mu.startAa = aa then 1 else 0)

/-- `[i for i, res in enumerate(seq) if res in cat]`: the ordered positions of
residues of category `cat`; instantiated at `CHARGED_RES` by
`_init_charged_res` and at `CHARGED_RES + ["P"]` by `_init_procharged`
(fresh-scan branches). -/
def categPositions (cat : List Char) (s : List Char) : List Nat :=
  (List.range s.length).filter (fun i => decide (s.getD i ' ' ∈ cat))

/-- The shared shape of `_init_charged_res` and `_init_procharged` when a
previous `BaseSeqRepr` is supplied: if there is no mutation or the mutated
position keeps its category membership, reuse the previous index list; on
leaving the category, drop `loc`; on entering it, insert `loc` and re-sort
(`sorted(prev + [mut.loc])`). -/
def initCategFromPrev (cat : List Char) (prevList : List Nat)
    (m : Option BasePointMutation) : List Nat :=
  match m with
  | none => prevList
  | some mu =>
      if decide (mu.startAa ∈ cat) = decide (mu.endAa ∈ cat) then prevList
      else if mu.startAa ∈ cat then
        prevList.filter (fun i => decide (i ≠ mu.loc))
      else (prevList ++ [mu.loc]).mergeSort (· ≤ ·)

/-- `DistanceCalculator.sqr_distance` from `feature_calculators/main.py`:
`diff = ser_a - ser_b; return sum(diff * diff / self.proteome_variance)`.
Vectors and the variance table are aligned by the fixed
`supported_features` order, modelled positionally. -/
def sqrDistance (pv : List ℚ) (a b : List ℚ) : ℚ :=
  (List.zipWith (fun d v => d * d / v) (List.zipWith (fun x y => x - y) a b) pv).sum

/-- `DistanceCalculator._init_with_csv` from `feature_calculators/main.py`:
`self.proteome_variance = read_csv(proteome_variance_file, index_col=0)['0']`.
The parsed variance column is stored verbatim; no entry is inspected, so the
constructor never fails on the values (modulo file I/O, which is out of
scope). -/
def distCalcInitWithCsv (table : List ℚ) : Except String (List ℚ) :=
  Except.ok table

-- ## Exhaustive one-point move generation

/-- `BruteForce.next_round_seqs` from `design_models/iter_guess_model.py`:
`moves = product(range(len(query)), AA_STRING)`, skipping moves whose residue
equals the current one, yielding each substituted sequence. The unmodified
query itself is NOT yielded. -/
def nextRoundSeqsBF (query : List Char) : List (List Char) :=
  (List.range query.length).flatMap (fun i =>
    AA_STRING.filterMap (fun res =>
      if query.getD i ' ' = res then none
      else some (applyMut query i res)))

/-- The (position, residue) pairs underlying `nextRoundSeqsBF`'s yielded
candidates. -/
def bfMoves (query : List Char) : List (Nat × Char) :=
  (List.range query.length).flatMap (fun i =>
    (AA_STRING.filter (fun res => decide (¬ query.getD i ' ' = res))).map
      (fun res => (i, res)))

/-- `BruteForce._get_next_seqs` from `design_models/brute_force.py`:
`output = [query]` followed by the substitution at EVERY
`(i, res) ∈ product(range(len(query)), AA_STRING)` — including `res`
equal to the current residue, so the query is re-appended once per
position. -/
def getNextSeqsBF (query : List Char) : List (List Char) :=
  query :: (List.range query.length).flatMap (fun i =>
    AA_STRING.map (fun res => applyMut query i res))

-- ## Error model and batch feature evaluation (idr_design)

/-- Python exception kinds relevant to `idr_design`'s scoring boundary:
`KeyboardInterrupt`, the feature-undefined errors raised by feature
preconditions, and any other (programming/cache) error. -/
inductive PyErr where
  | keyboardInterrupt
  | featureUndefined
  | other
deriving DecidableEq, Repr

/-- `SequenceFeatureCalculator.run_feats` from `feature_calculators/main.py`:
`list(map(lambda feat: self[feat](seq), self.supported_features))` — features
are evaluated in order and the first exception propagates. -/
def runFeats (feats : List (List Char → Except PyErr ℚ)) (s : List Char) :
    Except PyErr (List ℚ) :=
  match feats with
  | [] => .ok []
  | f :: fs =>
      match f s with
      | .error e => .error e
      | .ok v =>
          match runFeats fs s with
          | .error e => .error e
          | .ok vs => .ok (v :: vs)

/-- `SequenceFeatureCalculator.run_feats_skip_failures`: each feature is run
under `try`; `KeyboardInterrupt` is re-raised, EVERY other exception is
turned into a `None` entry (`except: result.append(None)` — a bare
`except`, not one limited to the feature-undefined error). -/
def runFeatsSkipFailures (feats : List (List Char → Except PyErr ℚ))
    (s : List Char) : Except PyErr (List (Option ℚ)) :=
  match feats with
  | [] => .ok []
  | f :: fs =>
      match f s with
      | .error .keyboardInterrupt => .error .keyboardInterrupt
      | .error _ => (runFeatsSkipFailures fs s).map (fun rest => none :: rest)
      | .ok v => (runFeatsSkipFailures fs s).map (fun rest => some v :: rest)

-- ## Iterative driver (iter_guess_model.IterativeGuessModel.search_similar)

/-- The candidate loop of one round of
`IterativeGuessModel.search_similar`: starting from the current
`(next_seq, next_feats, next_sqd)` accumulator (initialized by the caller to
the unmodified query), score each guess; `KeyboardInterrupt` is re-raised,
any other exception skips the guess (`except: continue`); a strictly
smaller distance updates the accumulator (ties keep the earlier one). -/
def igScanCands (feats : List (List Char → Except PyErr ℚ))
    (pv targetFeats : List ℚ) :
    List (List Char) → (List Char × List ℚ × ℚ) →
      Except PyErr (List Char × List ℚ × ℚ)
  | [], acc => .ok acc
  | guess :: rest, acc =>
      match runFeats feats guess with
      | .error .keyboardInterrupt => .error .keyboardInterrupt
      | .error _ => igScanCands feats pv targetFeats rest acc
      | .ok gf =>
          let gd := sqrDistance pv gf targetFeats
          if gd < acc.2.2 then igScanCands feats pv targetFeats rest (guess, gf, gd)
          else igScanCands feats pv targetFeats rest acc

/-- The `while step_size > self.precision` loop of
`IterativeGuessModel.search_similar`, with explicit fuel (`none` = the loop
has not terminated within `fuel` rounds).  Each round initializes the best
candidate to the unmodified current sequence, scans this round's candidates,
then sets `step_size = sqr_distance(next_feats, query_feats)` and adopts the
winner. -/
def igSearchLoop (feats : List (List Char → Except PyErr ℚ)) (pv : List ℚ)
    (nextRound : List Char → List (List Char)) (precision : ℚ)
    (targetFeats : List ℚ) :
    List Char → List ℚ → ℚ → Nat → Option (Except PyErr (List Char))
  | _, _, _, 0 => none
  | q, qf, step, fuel + 1 =>
      if precision < step then
        match igScanCands feats pv targetFeats (nextRound q)
            (q, qf, sqrDistance pv qf targetFeats) with
        | .error e => some (.error e)
        | .ok (ns, nf, _) =>
            igSearchLoop feats pv nextRound precision targetFeats ns nf
              (sqrDistance pv nf qf) fuel
      else some (.ok q)

/-- Entry into the round loop: `step_size = self.precision + 1` so the loop
runs at least once. -/
def igSearchSimilar (feats : List (List Char → Except PyErr ℚ)) (pv : List ℚ)
    (nextRound : List Char → List (List Char)) (precision : ℚ)
    (targetFeats : List ℚ) (query : List Char) (queryFeats : List ℚ)
    (fuel : Nat) : Option (Except PyErr (List Char)) :=
  igSearchLoop feats pv nextRound precision targetFeats query queryFeats
    (precision + 1) fuel

-- ## Python dict-by-position bookkeeping (shared by the randomized scans)

/-- `k in d.keys()` for a dict modelled as an insertion-ordered
association list. -/
def dictContains {α : Type} (l : List (Nat × α)) (k : Nat) : Bool :=
  l.any (fun p => p.1 = k)

/-- `d[k]` with a default for the (unreached) missing case. -/
def dictGetD {α : Type} (l : List (Nat × α)) (k : Nat) (d : α) : α :=
  match l.find? (fun p => p.1 = k) with
  | some p => p.2
  | none => d

/-- `d.update({k: v})`: overwrite in place keeping insertion order, or append
a new key at the end. -/
def dictUpdate {α : Type} (l : List (Nat × α)) (k : Nat) (v : α) :
    List (Nat × α) :=
  if dictContains l k then l.map (fun p => if p.1 = k then (k, v) else p)
  else l ++ [(k, v)]

/-- `GOOD_SAMPLE_SIZE` from `design_models/iter_guess_model.py`. -/
def GOOD_SAMPLE_SIZE : Nat := 2

/-- `REST_SAMPLE_SIZE` from `design_models/iter_guess_model.py`. -/
def REST_SAMPLE_SIZE : Nat := 14

-- ## Randomized multi-point scan (iter_guess_model.RandMultiChange)

/-- The inputs of `RandMultiChange.next_round_seqs` that are fixed during one
scan.  `featsOf` models `run_feats_skip_failures` as the list of per-feature
optional values (`KeyboardInterrupt` is an external signal, out of scope for
this scan model and treated separately by `runFeatsSkipFailures`). -/
structure ScanCfg where
  featsOf : List Char → List (Option ℚ)
  pv : List ℚ
  targetFeats : List ℚ
  queryFeats : List ℚ
  query : List Char
  queryDist : ℚ
  precision : ℚ
  goodSize : Nat
  restSize : Nat

/-- The scanning loop of `RandMultiChange.next_round_seqs`
(`iter_guess_model.py` lines 105–126): iterate over the shuffled one-point
moves, breaking as soon as the good quota is reached; skip identity moves and
moves whose candidate has an undefined feature; classify an improving move as
"good" when its step size exceeds the precision and otherwise as "marginal"
(`negative_delta_moves`); dictionaries are keyed by position and store
`(res, step_size)`; on a revisited position the incoming move is dropped
exactly when its DISTANCE exceeds the STORED STEP SIZE (`guess_dist >
moves[i][1]`); a new marginal position is dropped when the marginal dict is
full. -/
def scanMovesIG (cfg : ScanCfg) :
    List (Nat × Char) → List (Nat × Char × ℚ) → List (Nat × Char × ℚ) →
      (List (Nat × Char × ℚ) × List (Nat × Char × ℚ))
  | [], good, neg => (good, neg)
  | (i, res) :: rest, good, neg =>
      if cfg.goodSize ≤ good.length then (good, neg)
      else if cfg.query.getD i ' ' = res then scanMovesIG cfg rest good neg
      else
        let guess := applyMut cfg.query i res
        let gfo := cfg.featsOf guess
        if gfo.any (fun o => o.isNone) then scanMovesIG cfg rest good neg
        else
          let guessFeats := gfo.reduceOption
          let guessDist := sqrDistance cfg.pv guessFeats cfg.targetFeats
          if guessDist < cfg.queryDist then
            let stepSize := sqrDistance cfg.pv guessFeats cfg.queryFeats
            if cfg.precision < stepSize then
              if dictContains good i ∧ (dictGetD good i (' ', 0)).2 < guessDist
              then scanMovesIG cfg rest good neg
              else scanMovesIG cfg rest (dictUpdate good i (res, stepSize)) neg
            else
              if ¬ dictContains neg i ∧ cfg.restSize ≤ neg.length then
                scanMovesIG cfg rest good neg
              else if dictContains neg i ∧ (dictGetD neg i (' ', 0)).2 < guessDist
              then scanMovesIG cfg rest good neg
              else scanMovesIG cfg rest good (dictUpdate neg i (res, stepSize))
          else scanMovesIG cfg rest good neg

/-- Candidate building of `RandMultiChange.next_round_seqs` (lines 127–136):
start from `[query]` and, for each retained move in dict order, append to the
result every existing candidate with that move additionally applied. -/
def buildCandidates (query : List Char) (good neg : List (Nat × Char × ℚ)) :
    List (List Char) :=
  let result := [query]
  let result := good.foldl
    (fun acc p => acc ++ acc.map (fun x => applyMut x p.1 p.2.1)) result
  neg.foldl
    (fun acc p => acc ++ acc.map (fun x => applyMut x p.1 p.2.1)) result

/-- `RandMultiChange.next_round_seqs` (iter_guess_model version), with the
already-shuffled move list supplied by the caller. -/
def nextRoundSeqsRMC (featsOf : List Char → List (Option ℚ))
    (pv targetFeats queryFeats : List ℚ) (query : List Char) (precision : ℚ)
    (goodSize restSize : Nat) (shuffledMoves : List (Nat × Char)) :
    List (List Char) :=
  let queryDist := sqrDistance pv queryFeats targetFeats
  let gn := scanMovesIG
    ⟨featsOf, pv, targetFeats, queryFeats, query, queryDist, precision,
      goodSize, restSize⟩ shuffledMoves [] []
  buildCandidates query gn.1 gn.2

-- ## Randomized multi-point search (design_models/rand_mch.py)

/-- The scanning `while` loop of `RandMultiChange.search_similar`
(`rand_mch.py` lines 46–66 and, identically, 95–115): pull non-identity
moves from the shuffled generator while the good quota is unmet.  NOTE the
marginal bookkeeping differs from the iter_guess_model version: a NEW
position is skipped when `len(negative_delta_moves) < self.rest_sample_size`
(the comparison is inverted relative to `iter_guess_model.py`), so with the
default positive quota no marginal move is ever retained. -/
def randScan (cfg : ScanCfg) :
    List (Nat × Char) → List (Nat × Char × ℚ) → List (Nat × Char × ℚ) →
      (List (Nat × Char × ℚ) × List (Nat × Char × ℚ))
  | [], good, neg => (good, neg)
  | (i, res) :: rest, good, neg =>
      if good.length < cfg.goodSize then
        if cfg.query.getD i ' ' = res then randScan cfg rest good neg
        else
          let guess := applyMut cfg.query i res
          let gfo := cfg.featsOf guess
          if gfo.any (fun o => o.isNone) then randScan cfg rest good neg
          else
            let guessFeats := gfo.reduceOption
            let guessDist := sqrDistance cfg.pv guessFeats cfg.targetFeats
            if guessDist < cfg.queryDist then
              let stepSize := sqrDistance cfg.pv guessFeats cfg.queryFeats
              if cfg.precision < stepSize then
                if dictContains good i ∧ (dictGetD good i (' ', 0)).2 < guessDist
                then randScan cfg rest good neg
                else randScan cfg rest (dictUpdate good i (res, stepSize)) neg
              else
                if dictContains neg i ∧ (dictGetD neg i (' ', 0)).2 < guessDist
                then randScan cfg rest good neg
                else if ¬ dictContains neg i ∧ neg.length < cfg.restSize then
                  randScan cfg rest good neg
                else randScan cfg rest good (dictUpdate neg i (res, stepSize))
            else randScan cfg rest good neg
      else (good, neg)

/-- `RandMultiChange.apply_move`: apply a list of `(i, res)` substitutions
left to right. -/
def applyMove (query : List Char) (move : List (Nat × Char)) : List Char :=
  move.foldl (fun result p => applyMut result p.1 p.2) query

/-- The `N_pt_moves` doubling loops of `rand_mch.py` (lines 67–75 and
116–124): for each retained move, adjoin it to every move list built so
far. -/
def adjoinMoves (dict : List (Nat × Char × ℚ))
    (acc : List (List (Nat × Char))) : List (List (Nat × Char)) :=
  dict.foldl (fun acc2 p => acc2 ++ acc2.map (fun mv => mv ++ [(p.1, p.2.1)]))
    acc

/-- Python `dict` keyed by sequence (`run_feats_mult_seqs_skip_fail`):
first-occurrence deduplication. -/
def uniqueKeys (l : List (List Char)) : List (List Char) :=
  l.foldl (fun acc s => if s ∈ acc then acc else acc ++ [s]) []

/-- `Series.drop(index=bad)` for a positionally labelled series. -/
def dropAtIdxs {α : Type} (l : List α) (bad : List Nat) : List α :=
  (l.enum.filter (fun p => decide (p.1 ∉ bad))).map Prod.snd

/-- `Series.argmin()`: position of the first minimum. -/
def argminIdx (l : List ℚ) : Nat :=
  (l.enum.foldl (fun best p => if p.2 < best.2 then p else best)
    (0, l.getD 0 0)).1

/-- The candidate-evaluation and selection tail of each `rand_mch.py` round
(lines 76–85 / 125–134): deduplicate candidates through the dict keyed by
sequence, drop rows with an undefined feature, take the distance-minimizing
row, and compute the step size against row 0 (the unmodified current
sequence).  Pandas row labels are modelled positionally. -/
def randRoundSelect (featsOf : List Char → List (Option ℚ)) (pv : List ℚ)
    (targetFeats : List ℚ) (nextSeqs : List (List Char)) :
    (List Char × ℚ) :=
  let uniq := uniqueKeys nextSeqs
  let dfRows := uniq.map featsOf
  let failedRows := (dfRows.enum.filter
    (fun p => p.2.any (fun o => o.isNone))).map Prod.fst
  let cleanNextSeqs := dropAtIdxs nextSeqs failedRows
  let cleanNextFeats := (dfRows.filter
    (fun row => ¬ row.any (fun o => o.isNone))).map List.reduceOption
  let nextDists := cleanNextFeats.map (fun fv => sqrDistance pv fv targetFeats)
  let nextPlace := argminIdx nextDists
  (cleanNextSeqs.getD nextPlace [], sqrDistance pv
    (cleanNextFeats.getD nextPlace []) (cleanNextFeats.getD 0 []))

/-- The `while step_size > precision` loop of
`RandMultiChange.search_similar` (lines 86–135), threading the pseudo-random
stream state `g` through the per-round `random.shuffle`.  `fuel` bounds the
number of rounds (`none` = not yet terminated). -/
def randSearchLoop (R : Type)
    (shuffleFn : R → List (Nat × Char) → (List (Nat × Char) × R))
    (featsOf : List Char → List (Option ℚ)) (pv targetFeats : List ℚ)
    (precision : ℚ) (goodSize restSize : Nat) :
    List Char → R → Nat → Option (List Char)
  | _, _, 0 => none
  | nextSeq, g, fuel + 1 =>
      let nextFeats := (featsOf nextSeq).reduceOption
      let nextDist := sqrDistance pv nextFeats targetFeats
      let moves := (List.range nextSeq.length).flatMap
        (fun i => AA_STRING.map (fun res => (i, res)))
      let sh := shuffleFn g moves
      let gn := randScan
        ⟨featsOf, pv, targetFeats, nextFeats, nextSeq, nextDist, precision,
          goodSize, restSize⟩ sh.1 [] []
      let nPt := adjoinMoves gn.2 (adjoinMoves gn.1 [[]])
      let nextSeqs := nPt.map (applyMove nextSeq)
      let sel := randRoundSelect featsOf pv targetFeats nextSeqs
      if precision < sel.2 then
        randSearchLoop R shuffleFn featsOf pv targetFeats precision goodSize
          restSize sel.1 sh.2 fuel
      else some sel.1

/-- `RandMultiChange.search_similar` (`rand_mch.py` lines 27–136): when a
seed is set, the global stream is re-seeded with `self.seed + target`
(discarding the ambient stream state `g0`); then the initial round
(lines 37–85) runs, followed by the `while` loop.  `seedFn` models
`random.seed` on the concatenated string, `shuffleFn` models
`random.shuffle` on the stream state. -/
def randSearchSimilar (R : Type)
    (shuffleFn : R → List (Nat × Char) → (List (Nat × Char) × R))
    (seedFn : List Char → R) (featsOf : List Char → List (Option ℚ))
    (pv : List ℚ) (seed : Option (List Char)) (query target : List Char)
    (g0 : R) (precision : ℚ) (goodSize restSize : Nat) (fuel : Nat) :
    Option (List Char) :=
  let g1 := match seed with
    | some sd => seedFn (sd ++ target)
    | none => g0
  let targetFeats := (featsOf target).reduceOption
  let nextFeats := (featsOf query).reduceOption
  let nextDist := sqrDistance pv nextFeats targetFeats
  let moves := (List.range query.length).flatMap
    (fun i => AA_STRING.map (fun res => (i, res)))
  let sh := shuffleFn g1 moves
  let gn := randScan
    ⟨featsOf, pv, targetFeats, nextFeats, query, nextDist, precision,
      goodSize, restSize⟩ sh.1 [] []
  let nPt := adjoinMoves gn.2 (adjoinMoves gn.1 [[]])
  let nextSeqs := nPt.map (applyMove query)
  let sel := randRoundSelect featsOf pv targetFeats nextSeqs
  if precision < sel.2 then
    randSearchLoop R shuffleFn featsOf pv targetFeats precision goodSize
      restSize sel.1 sh.2 fuel
  else some sel.1

-- ## Incremental features (libbasesfc/features.py)

/-- Error kinds of `libbasesfc`: `SFCValueException` (a feature's precondition
on the sequence is not met) and the plain `IDRDesignerException` raised on
cache/contract violations. -/
inductive SfcErr where
  | valueErr
  | designerErr
deriving DecidableEq, Repr

/-- The `O(N^2)` double loop of `scd`'s from-scratch branch:
`for i, loc_i in enumerate(target.charged_res): for loc_j in
target.charged_res[:i]: result += q(seq[loc_i]) * q(seq[loc_j]) *
sqrt(loc_i - loc_j)`.  `BINARY_CHARGE[seq[loc]]` is modelled by the totalized
`binaryCharge` (they agree on charged positions, the only ones indexed);
`loc_i - loc_j` is a nonnegative difference because `charged_res` is kept in
ascending order. -/
def scdFullSum (rt : Nat → ℚ) (s : List Char) (cs : List Nat) : ℚ :=
  ((List.range cs.length).map (fun i =>
    ((cs.take i).map (fun locj =>
      (binaryCharge (s.getD (cs.getD i 0) ' ') : ℚ)
        * (binaryCharge (s.getD locj ' ') : ℚ)
        * rt (cs.getD i 0 - locj))).sum)).sum

/-- `scd` with `prev = None` (from scratch): raise on an empty sequence, else
the normalized pair sum over the cached `charged_res` index list. -/
def scdFresh (rt : Nat → ℚ) (s : List Char) (cs : List Nat) :
    Except SfcErr ℚ :=
  if s.length = 0 then .error .valueErr
  else .ok (scdFullSum rt s cs / (s.length : ℚ))

/-- `scd` with a previous `BaseSeqRepr` supplied: raise on an empty sequence;
raise `IDRDesignerException` when the repr carries no mutation or no cached
`scd`; if the mutation does not change the binary charge return the cached
value; otherwise add `sum_delta / len(seq)` where `sum_delta` ranges over the
PREVIOUS sequence's charged positions, reading charges from the NEW sequence
`s2` and distances `abs(mut.loc - i)`. -/
def scdFromPrev (rt : Nat → ℚ) (s2 : List Char) (cached : Option ℚ)
    (prevCharged : List Nat) (m : Option BasePointMutation) :
    Except SfcErr ℚ :=
  if s2.length = 0 then .error .valueErr
  else
    match m with
    | none => .error .designerErr
    | some mu =>
        match cached with
        | none => .error .designerErr
        | some cachedResult =>
            if binaryCharge mu.startAa = binaryCharge mu.endAa then
              .ok cachedResult
            else
              let sumDelta := (prevCharged.map (fun i =>
                (binaryCharge (s2.getD i ' ') : ℚ)
                  * ((binaryCharge mu.endAa : ℚ) - (binaryCharge mu.startAa : ℚ))
                  * rt (Int.natAbs ((mu.loc : Int) - (i : Int))))).sum
              .ok (cachedResult + sumDelta / (s2.length : ℚ))

/-- `itertools.pairwise`: consecutive pairs. -/
def pairwiseList {α : Type} (l : List α) : List (α × α) := l.zip (l.drop 1)

/-- Body of `custom_kappa`'s full computation, abstracted over the only data
it reads from the sequence: its length `n` and its binary-charge profile `Q`
(`BINARY_CHARGE[seq[i]]`).  Mirrors `_custom_neighbors` +
`prob_neighbor_given_candidate` + the final standardized count. -/
def customKappaBody (rtq : ℚ → ℚ) (blob : Nat) (n : Nat) (Q : Nat → Int)
    (candidates : List Nat) : Except SfcErr ℚ :=
  let pairs := pairwiseList candidates
  if pairs.length = 0 then .error .valueErr
  else
    let countNeighbors : Nat := pairs.countP (fun p =>
      decide (Int.natAbs ((p.1 : Int) - (p.2 : Int)) ≤ blob)
        && decide (Q p.1 = Q p.2))
    let proportionCharged : ℚ := (candidates.length : ℚ) / (n : ℚ)
    if proportionCharged = 1 then .error .valueErr
    else
      let countPos : Nat := candidates.countP (fun i => decide (Q i = 1))
      let countNeg : ℚ := (candidates.length : ℚ) - (countPos : ℚ)
      let probNextChargeInBlob : ℚ := proportionCharged *
        (((List.range blob).map (fun i => (1 - proportionCharged) ^ i)).sum)
      let probChargesAreDiff : ℚ :=
        2 * countNeg * (countPos : ℚ) / ((candidates.length : ℚ) ^ 2)
      let p : ℚ := probNextChargeInBlob * (1 - probChargesAreDiff)
      let meanNeighbors : ℚ := p * (candidates.length : ℚ)
      let sdNeighbors : ℚ := rtq (p * (1 - p) * (candidates.length : ℚ))
      .ok (((countNeighbors : ℚ) - meanNeighbors) / sdNeighbors)

/-- `custom_kappa`'s full computation on a sequence, with
`candidates = target.charged_res`. -/
def customKappaCalc (rtq : ℚ → ℚ) (blob : Nat) (s : List Char)
    (candidates : List Nat) : Except SfcErr ℚ :=
  customKappaBody rtq blob s.length (fun i => binaryCharge (s.getD i ' '))
    candidates

/-- `custom_kappa` with a previous `BaseSeqRepr` supplied: no mutation is a
contract error; a charge-preserving mutation returns the cached value (or a
contract error if it is missing); otherwise fall through to the full
computation on the new sequence with the (incrementally maintained)
`target.charged_res`. -/
def customKappaFromPrev (rtq : ℚ → ℚ) (blob : Nat) (s2 : List Char)
    (targetCharged : List Nat) (cached : Option ℚ)
    (m : Option BasePointMutation) : Except SfcErr ℚ :=
  match m with
  | none => .error .designerErr
  | some mu =>
      if binaryCharge mu.startAa = binaryCharge mu.endAa then
        match cached with
        | none => .error .designerErr
        | some v => .ok v
      else customKappaCalc rtq blob s2 targetCharged

/-- Body of `custom_omega`'s full computation: it reads only the sequence
length and `candidates = target.procharged_res` (its neighbor criteria is
`abs(i - j) <= blob`, independent of the residues). -/
def customOmegaBody (rtq : ℚ → ℚ) (blob : Nat) (n : Nat)
    (candidates : List Nat) : Except SfcErr ℚ :=
  let pairs := pairwiseList candidates
  if pairs.length = 0 then .error .valueErr
  else
    let countNeighbors : Nat := pairs.countP (fun p =>
      decide (Int.natAbs ((p.1 : Int) - (p.2 : Int)) ≤ blob))
    let proportionProcharge : ℚ := (candidates.length : ℚ) / (n : ℚ)
    if proportionProcharge = 1 then .error .valueErr
    else
      let p : ℚ := proportionProcharge *
        (((List.range blob).map (fun i => (1 - proportionProcharge) ^ i)).sum)
      let meanNeighbors : ℚ := p * (candidates.length : ℚ)
      let sdNeighbors : ℚ := rtq (p * (1 - p) * (candidates.length : ℚ))
      .ok (((countNeighbors : ℚ) - meanNeighbors) / sdNeighbors)

/-- `custom_omega`'s full computation on a sequence. -/
def customOmegaCalc (rtq : ℚ → ℚ) (blob : Nat) (s : List Char)
    (candidates : List Nat) : Except SfcErr ℚ :=
  customOmegaBody rtq blob s.length candidates

/-- `custom_omega` with a previous `BaseSeqRepr` supplied: a mutation that
preserves membership in `CHARGED_RES + ["P"]` returns the cached value;
otherwise fall through to the full computation on the new sequence with the
maintained `target.procharged_res`. -/
def customOmegaFromPrev (rtq : ℚ → ℚ) (blob : Nat) (s2 : List Char)
    (targetProcharged : List Nat) (cached : Option ℚ)
    (m : Option BasePointMutation) : Except SfcErr ℚ :=
  match m with
  | none => .error .designerErr
  | some mu =>
      if decide (mu.startAa ∈ PROCHARGED_RES) = decide (mu.endAa ∈ PROCHARGED_RES)
      then
        match cached with
        | none => .error .designerErr
        | some v => .ok v
      else customOmegaCalc rtq blob s2 targetProcharged

/-- Proof-side recursive characterization of the `scd` pair sum: the head of
the list is the earliest charged position and pairs with every later one. -/
def pairSumRec (g : Nat → Nat → ℚ) : List Nat → ℚ
  | [] => 0
  | x :: xs => (xs.map (fun y => g y x)).sum + pairSumRec g xs

-- # Helper lemmas: mutated sequences

theorem applyMut_length (s : List Char) (loc : Nat) (e : Char)
    (h : loc < s.length) : (applyMut s loc e).length = s.length := by
  simp [applyMut]
  omega

theorem applyMut_getElem? (s : List Char) (loc : Nat) (e : Char)
    (h : loc < s.length) (i : Nat) :
    (applyMut s loc e)[i]? = if i = loc then some e else s[i]? := by
  have htk : (s.take loc).length = loc := by simp; omega
  unfold applyMut
  rw [List.append_assoc]
  rcases lt_trichotomy i loc with hlt | heq | hgt
  · rw [if_neg (by omega), List.getElem?_append_left (by omega), List.getElem?_take,
      if_pos hlt]
  · subst heq
    rw [if_pos rfl, List.getElem?_append_right (by omega), htk]
    simp
  · rw [if_neg (by omega), List.getElem?_append_right (by omega), htk]
    have h1 : i - loc = (i - loc - 1) + 1 := by omega
    rw [h1]
    simp only [List.cons_append, List.nil_append, List.getElem?_cons_succ]
    rw [List.getElem?_drop]
    congr 1
    omega

theorem applyMut_getD (s : List Char) (loc : Nat) (e : Char)
    (h : loc < s.length) (i : Nat) :
    (applyMut s loc e).getD i ' ' =
      if i = loc then e else s.getD i ' ' := by
  rw [List.getD_eq_getElem?_getD, applyMut_getElem? s loc e h i]
  by_cases hil : i = loc
  · simp [hil]
  · simp [hil, List.getD_eq_getElem?_getD]

/-- Splitting a list at a position in bounds. -/
theorem take_getD_drop (s : List Char) (loc : Nat) (h : loc < s.length) :
    s.take loc ++ [s.getD loc ' '] ++ s.drop (loc + 1) = s := by
  conv_rhs => rw [← List.take_append_drop loc s]
  rw [List.append_assoc]
  congr 1
  rw [List.drop_eq_getElem_cons h]
  rw [List.getD_eq_getElem?_getD, List.getElem?_eq_getElem h]
  simp

-- # C10 helper: counts

theorem count_applyMut (s : List Char) (m : BasePointMutation) (aa : Char)
    (hv : validMutation s m) :
    builtinCount (applyMut s m.loc m.endAa) aa =
      builtinCount s aa + (if m.endAa = aa then 1 else 0)
        - (if m.startAa = aa then 1 else 0) := by
  obtain ⟨hloc, hstart, _⟩ := hv
  unfold builtinCount applyMut
  have hs : s.filter (fun res => res = aa) =
      (s.take m.loc ++ [s.getD m.loc ' '] ++ s.drop (m.loc + 1)).filter
        (fun res => res = aa) := by
    rw [take_getD_drop s m.loc hloc]
  rw [hs, hstart]
  simp only [List.filter_append]
  simp only [List.length_append]
  by_cases he : m.endAa = aa <;> by_cases hst : m.startAa = aa <;>
    simp [he, hst, List.filter_singleton] <;> omega

/-- C10 (claim theorem below applies this): the derived builtin count equals
the true occurrence count of the mutated sequence. -/
theorem setBuiltinCountDerived_correct (s : List Char) (m : BasePointMutation)
    (aa : Char) (hv : validMutation s m) :
    setBuiltinCountDerived (builtinCount s aa) (some m) aa =
      builtinCount (applyMut s m.loc m.endAa) aa := by
  rw [count_applyMut s m aa hv]
  rfl

-- # C9 helpers: category index sets

theorem categPositions_sorted (cat : List Char) (s : List Char) :
    (categPositions cat s).Sorted (· ≤ ·) := by
  unfold categPositions
  exact (List.pairwise_le_range s.length).sublist (List.filter_sublist _)

theorem categPositions_nodup (cat : List Char) (s : List Char) :
    (categPositions cat s).Nodup := by
  unfold categPositions
  exact (List.nodup_range _).filter _

theorem mem_categPositions (cat : List Char) (s : List Char) (i : Nat) :
    i ∈ categPositions cat s ↔ i < s.length ∧ s.getD i ' ' ∈ cat := by
  unfold categPositions
  simp [List.mem_filter]

/-- The pointwise description of the mutated sequence's category predicate. -/
theorem categPositions_applyMut (cat : List Char) (s : List Char)
    (loc : Nat) (e : Char) (h : loc < s.length) (i : Nat) :
    (i ∈ categPositions cat (applyMut s loc e)) ↔
      (i < s.length ∧ (if i = loc then e ∈ cat else s.getD i ' ' ∈ cat)) := by
  rw [mem_categPositions, applyMut_length s loc e h, applyMut_getD s loc e h]
  constructor
  · rintro ⟨hi, hm⟩
    refine ⟨hi, ?_⟩
    by_cases hil : i = loc <;> simp_all
  · rintro ⟨hi, hm⟩
    refine ⟨hi, ?_⟩
    by_cases hil : i = loc <;> simp_all

/-- Two sorted duplicate-free lists of naturals with the same members are
equal. -/
theorem sorted_nodup_ext (l1 l2 : List Nat)
    (s1 : l1.Sorted (· ≤ ·)) (s2 : l2.Sorted (· ≤ ·))
    (n1 : l1.Nodup) (n2 : l2.Nodup) (h : ∀ a, a ∈ l1 ↔ a ∈ l2) : l1 = l2 :=
  List.eq_of_perm_of_sorted ((List.perm_ext_iff_of_nodup n1 n2).mpr h) s1 s2

/-- C9 core lemma: assuming the previous index list is the (sorted, correct)
full scan of the previous sequence, the incremental update computes exactly
the full scan of the mutated sequence. -/
theorem initCategFromPrev_correct (cat : List Char) (s : List Char)
    (m : BasePointMutation) (hv : validMutation s m) :
    initCategFromPrev cat (categPositions cat s) (some m) =
      categPositions cat (applyMut s m.loc m.endAa) := by
  obtain ⟨hloc, hstart, _⟩ := hv
  have hsorted2 := categPositions_sorted cat (applyMut s m.loc m.endAa)
  have hnodup2 := categPositions_nodup cat (applyMut s m.loc m.endAa)
  simp only [initCategFromPrev]
  by_cases hsame : decide (m.startAa ∈ cat) = decide (m.endAa ∈ cat)
  · rw [if_pos hsame]
    have hsame' : (m.startAa ∈ cat) ↔ (m.endAa ∈ cat) := by
      rw [decide_eq_decide] at hsame; exact hsame
    refine sorted_nodup_ext _ _ (categPositions_sorted cat s) hsorted2
      (categPositions_nodup cat s) hnodup2 (fun i => ?_)
    rw [mem_categPositions, categPositions_applyMut cat s m.loc m.endAa hloc]
    by_cases hil : i = m.loc
    · subst hil
      simp only [if_pos rfl, hstart]
      exact and_congr_right (fun _ => hsame')
    · simp [hil]
  · rw [if_neg hsame]
    have hsame' : ¬ ((m.startAa ∈ cat) ↔ (m.endAa ∈ cat)) := by
      rw [decide_eq_decide] at hsame; exact hsame
    by_cases hstartc : m.startAa ∈ cat
    · have hendc : m.endAa ∉ cat := fun hc => hsame' ⟨fun _ => hc, fun _ => hstartc⟩
      rw [if_pos hstartc]
      refine sorted_nodup_ext _ _
        ((categPositions_sorted cat s).sublist (List.filter_sublist _))
        hsorted2 ((categPositions_nodup cat s).filter _) hnodup2 (fun i => ?_)
      rw [List.mem_filter, mem_categPositions,
        categPositions_applyMut cat s m.loc m.endAa hloc]
      by_cases hil : i = m.loc
      · subst hil
        simp [hendc]
      · simp [hil]
    · have hendc : m.endAa ∈ cat := by
        by_contra hc
        exact hsame' ⟨fun h => absurd h hstartc, fun h => absurd h hc⟩
      rw [if_neg hstartc]
      have hlocnotin : m.loc ∉ categPositions cat s := by
        rw [mem_categPositions, hstart]
        exact fun hc => hstartc hc.2
      have hperm : List.Perm ((categPositions cat s ++ [m.loc]).mergeSort (· ≤ ·))
          (categPositions cat s ++ [m.loc]) := List.mergeSort_perm _ _
      refine sorted_nodup_ext _ _ (List.sorted_mergeSort' _) hsorted2
        (hperm.nodup_iff.mpr ?_) hnodup2 (fun i => ?_)
      · rw [List.nodup_append]
        exact ⟨categPositions_nodup cat s, List.nodup_singleton _,
          fun a ha hb => by simp at hb; subst hb; exact hlocnotin ha⟩
      · rw [hperm.mem_iff, List.mem_append, mem_categPositions,
          categPositions_applyMut cat s m.loc m.endAa hloc]
        by_cases hil : i = m.loc
        · subst hil
          simp [hendc, hloc]
        · simp [hil]

-- # C3 helpers: the normalized squared distance

theorem sqrDistance_self (pv v : List ℚ) : sqrDistance pv v v = 0 := by
  unfold sqrDistance
  induction v generalizing pv with
  | nil => simp
  | cons x xs ih =>
    cases pv with
    | nil => simp
    | cons p ps =>
      simp only [List.zipWith_cons_cons, List.sum_cons, sub_self, zero_mul,
        zero_div, zero_add]
      exact ih ps

theorem sqrDistance_comm (pv a b : List ℚ) :
    sqrDistance pv a b = sqrDistance pv b a := by
  unfold sqrDistance
  induction a generalizing b pv with
  | nil => cases b <;> simp
  | cons x xs ih =>
    cases b with
    | nil => simp
    | cons y ys =>
      cases pv with
      | nil => simp
      | cons p ps =>
        have hsq : (x - y) * (x - y) = (y - x) * (y - x) := by ring
        simp only [List.zipWith_cons_cons, List.sum_cons, hsq, ih]

theorem sqrDistance_nonneg (pv a b : List ℚ) (hpos : ∀ v ∈ pv, 0 < v) :
    0 ≤ sqrDistance pv a b := by
  unfold sqrDistance
  induction a generalizing b pv with
  | nil => cases b <;> simp
  | cons x xs ih =>
    cases b with
    | nil => simp
    | cons y ys =>
      cases pv with
      | nil => simp
      | cons p ps =>
        simp only [List.zipWith_cons_cons, List.sum_cons]
        have h1 : 0 ≤ (x - y) * (x - y) / p :=
          div_nonneg (mul_self_nonneg _) (le_of_lt (hpos p (by simp)))
        have h2 := ih ps ys (fun v hv => hpos v (by simp [hv]))
        linarith

theorem sqrDistance_eq_zero_iff (pv a b : List ℚ) (hpos : ∀ v ∈ pv, 0 < v)
    (ha : a.length = pv.length) (hb : b.length = pv.length) :
    sqrDistance pv a b = 0 ↔ a = b := by
  induction pv generalizing a b with
  | nil =>
    simp only [List.length_nil] at ha hb
    rw [List.length_eq_zero] at ha hb
    subst ha; subst hb
    simp [sqrDistance]
  | cons p ps ih =>
    cases a with
    | nil => simp at ha
    | cons x xs =>
      cases b with
      | nil => simp at hb
      | cons y ys =>
        have hp : 0 < p := hpos p (by simp)
        have hpos' : ∀ v ∈ ps, 0 < v := fun v hv => hpos v (by simp [hv])
        have ha' : xs.length = ps.length := by simpa using ha
        have hb' : ys.length = ps.length := by simpa using hb
        have hhead : 0 ≤ (x - y) * (x - y) / p :=
          div_nonneg (mul_self_nonneg _) (le_of_lt hp)
        have htail : 0 ≤ sqrDistance ps xs ys := sqrDistance_nonneg ps xs ys hpos'
        constructor
        · intro h
          unfold sqrDistance at h
          simp only [List.zipWith_cons_cons, List.sum_cons] at h
          have hsplit : (x - y) * (x - y) / p = 0 ∧ sqrDistance ps xs ys = 0 := by
            unfold sqrDistance
            constructor <;> [skip; skip] <;> unfold sqrDistance at htail <;> linarith
          have hx : x = y := by
            have := hsplit.1
            have hne : p ≠ 0 := ne_of_gt hp
            rw [div_eq_zero_iff] at this
            rcases this with h0 | h0
            · have := mul_self_eq_zero.mp h0
              linarith [sub_eq_zero.mp this]
            · exact absurd h0 hne
          have htl : xs = ys := (ih xs ys hpos' ha' hb').mp hsplit.2
          rw [hx, htl]
        · intro h
          rw [h]
          exact sqrDistance_self _ _

-- # C2 helpers: exhaustive move generation

theorem filterMapIf {β : Type} (l : List Char) (c : Char) (f : Char → β) :
    l.filterMap (fun res => if c = res then none else some (f res)) =
      (l.filter (fun res => decide (¬ c = res))).map f := by
  induction l with
  | nil => rfl
  | cons x xs ih =>
    by_cases h : c = x
    · subst h
      simp only [List.filterMap_cons, List.filter_cons, if_pos rfl]
      simpa using ih
    · simp only [List.filterMap_cons, List.filter_cons]
      rw [if_neg h]
      simp [h, ih]

theorem nextRoundSeqsBF_eq_map (query : List Char) :
    nextRoundSeqsBF query =
      (bfMoves query).map (fun p => applyMut query p.1 p.2) := by
  unfold nextRoundSeqsBF bfMoves
  rw [List.map_flatMap]
  congr 1
  funext i
  rw [filterMapIf, List.map_map]
  rfl

theorem length_filter_ne_19 (c : Char) (hc : c ∈ AA_STRING) :
    (AA_STRING.filter (fun res => decide (¬ c = res))).length = 19 := by
  fin_cases hc <;> decide

theorem getD_mem (query : List Char) (i : Nat) (hi : i < query.length) :
    query.getD i ' ' ∈ query := by
  rw [List.getD_eq_getElem?_getD, List.getElem?_eq_getElem hi]
  exact List.getElem_mem hi

theorem nextRoundSeqsBF_length (query : List Char)
    (hval : ∀ c ∈ query, c ∈ AA_STRING) :
    (nextRoundSeqsBF query).length = query.length * 19 := by
  unfold nextRoundSeqsBF
  rw [List.length_flatMap]
  simp only [Function.comp_def]
  have h19 : ∀ i ∈ List.range query.length,
      (AA_STRING.filterMap (fun res =>
        if query.getD i ' ' = res then none
        else some (applyMut query i res))).length = (fun _ : Nat => 19) i := by
    intro i hi
    rw [List.mem_range] at hi
    rw [filterMapIf, List.length_map]
    exact length_filter_ne_19 _ (hval _ (getD_mem query i hi))
  rw [List.map_congr_left h19, List.map_const', List.sum_replicate,
    smul_eq_mul, List.length_range]

theorem bfMoves_nodup (query : List Char) : (bfMoves query).Nodup := by
  unfold bfMoves
  rw [List.nodup_flatMap]
  constructor
  · intro i _
    refine List.Nodup.map (fun a b hab => ?_) (List.Nodup.filter _ (by decide))
    exact congrArg Prod.snd hab
  · refine (List.pairwise_lt_range query.length).imp ?_
    intro a b hab p hpa hpb
    simp only [List.mem_map] at hpa hpb
    obtain ⟨ra, _, hra⟩ := hpa
    obtain ⟨rb, _, hrb⟩ := hpb
    rw [← hra] at hrb
    have hba : b = a := congrArg Prod.fst hrb
    omega

theorem query_not_mem_nextRoundSeqsBF (query : List Char) :
    query ∉ nextRoundSeqsBF query := by
  unfold nextRoundSeqsBF
  intro hmem
  rw [List.mem_flatMap] at hmem
  obtain ⟨i, hi, hmem2⟩ := hmem
  rw [List.mem_range] at hi
  rw [List.mem_filterMap] at hmem2
  obtain ⟨res, _, hres⟩ := hmem2
  by_cases h : query.getD i ' ' = res
  · rw [if_pos h] at hres
    exact Option.noConfusion hres
  · rw [if_neg h] at hres
    have heq := Option.some.inj hres
    have hgd := applyMut_getD query i res hi i
    rw [heq, if_pos rfl] at hgd
    exact h hgd

theorem getNextSeqsBF_length (query : List Char) :
    (getNextSeqsBF query).length = query.length * 20 + 1 := by
  unfold getNextSeqsBF
  rw [List.length_cons, List.length_flatMap]
  simp only [Function.comp_def]
  have h20 : ∀ i ∈ List.range query.length,
      (AA_STRING.map (fun res => applyMut query i res)).length
        = (fun _ : Nat => 20) i := by
    intro i _
    simp [AA_STRING, AMINOACIDS]
  rw [List.map_congr_left h20, List.map_const', List.sum_replicate,
    smul_eq_mul, List.length_range]

-- # C1 helpers: scd pair-sum characterization

theorem list_sum_map_zero {α : Type} (l : List α) (f : α → ℚ)
    (h : ∀ x ∈ l, f x = 0) : (l.map f).sum = 0 := by
  induction l with
  | nil => rfl
  | cons x xs ih =>
    simp only [List.map_cons, List.sum_cons, h x (by simp), zero_add]
    exact ih (fun y hy => h y (by simp [hy]))

theorem list_sum_map_filter (l : List Nat) (p : Nat → Bool) (f : Nat → ℚ)
    (h : ∀ x ∈ l, p x = false → f x = 0) :
    ((l.filter p).map f).sum = (l.map f).sum := by
  induction l with
  | nil => rfl
  | cons x xs ih =>
    by_cases hp : p x
    · rw [List.filter_cons_of_pos hp]
      simp only [List.map_cons, List.sum_cons]
      rw [ih (fun y hy hpy => h y (by simp [hy]) hpy)]
    · rw [List.filter_cons_of_neg (by simpa using hp)]
      simp only [List.map_cons, List.sum_cons]
      rw [h x (by simp) (by simpa using hp), zero_add]
      exact ih (fun y hy hpy => h y (by simp [hy]) hpy)

theorem listSum_map_range (f : Nat → ℚ) (n : Nat) :
    ((List.range n).map f).sum = ∑ i ∈ Finset.range n, f i := by
  induction n with
  | zero => simp
  | succ k ih => simp [List.range_succ, Finset.sum_range_succ, ih]

theorem map_getD_range (l : List Nat) :
    (List.range l.length).map (fun k => l.getD k 0) = l := by
  apply List.ext_getElem
  · simp
  · intro i h1 h2
    simp [List.getD_eq_getElem?_getD, List.getElem?_eq_getElem h2]

/-- The charge-profile of a sequence, as read by `scd`. -/
theorem scdFullSum_eq_pairSumRec (rt : Nat → ℚ) (s : List Char)
    (cs : List Nat) :
    scdFullSum rt s cs =
      pairSumRec (fun hi lo =>
        (binaryCharge (s.getD hi ' ') : ℚ) * (binaryCharge (s.getD lo ' ') : ℚ)
          * rt (hi - lo)) cs := by
  induction cs with
  | nil => rfl
  | cons x xs ih =>
    unfold scdFullSum pairSumRec
    rw [List.length_cons, List.range_succ_eq_map, List.map_cons, List.map_map]
    simp only [List.getD_cons_zero, List.take_zero, List.map_nil,
      List.sum_nil, List.sum_cons]
    have hsucc : ((List.range xs.length).map
        ((fun i => (((x :: xs).take i).map (fun locj =>
          (binaryCharge (s.getD ((x :: xs).getD i 0) ' ') : ℚ)
            * (binaryCharge (s.getD locj ' ') : ℚ)
            * rt ((x :: xs).getD i 0 - locj))).sum) ∘ Nat.succ)).sum
        = ((List.range xs.length).map (fun k =>
            (binaryCharge (s.getD (xs.getD k 0) ' ') : ℚ)
              * (binaryCharge (s.getD x ' ') : ℚ) * rt (xs.getD k 0 - x)
            + ((xs.take k).map (fun locj =>
                (binaryCharge (s.getD (xs.getD k 0) ' ') : ℚ)
                  * (binaryCharge (s.getD locj ' ') : ℚ)
                  * rt (xs.getD k 0 - locj))).sum)).sum := by
      apply congrArg
      apply List.map_congr_left
      intro k _
      simp [List.take_succ_cons, Function.comp]
    rw [hsucc, List.sum_map_add]
    have hx : ((List.range xs.length).map (fun k =>
        (binaryCharge (s.getD (xs.getD k 0) ' ') : ℚ)
          * (binaryCharge (s.getD x ' ') : ℚ) * rt (xs.getD k 0 - x))).sum
        = (xs.map (fun y =>
            (binaryCharge (s.getD y ' ') : ℚ)
              * (binaryCharge (s.getD x ' ') : ℚ) * rt (y - x))).sum := by
      conv_rhs => rw [← map_getD_range xs, List.map_map]
      rfl
    rw [hx, zero_add, ← ih]
    rfl

theorem pairSumRec_append_singleton (g : Nat → Nat → ℚ) (l : List Nat)
    (z : Nat) :
    pairSumRec g (l ++ [z]) = pairSumRec g l + (l.map (fun x => g z x)).sum := by
  induction l with
  | nil => simp [pairSumRec]
  | cons x xs ih =>
    simp only [List.cons_append, pairSumRec, List.append_eq, List.map_append,
      List.sum_append, List.map_cons, List.sum_cons, List.map_nil,
      List.sum_nil, ih]
    ring

theorem pairSumRec_range (g : Nat → Nat → ℚ) (n : Nat) :
    pairSumRec g (List.range n) =
      ∑ i ∈ Finset.range n, ∑ j ∈ Finset.range i, g i j := by
  induction n with
  | zero => simp [pairSumRec]
  | succ k ih =>
    rw [List.range_succ, pairSumRec_append_singleton, ih,
      Finset.sum_range_succ, listSum_map_range]

theorem pairSumRec_filter (g : Nat → Nat → ℚ) (l : List Nat) (p : Nat → Bool)
    (h : ∀ x ∈ l, p x = false → ∀ y, g x y = 0 ∧ g y x = 0) :
    pairSumRec g (l.filter p) = pairSumRec g l := by
  induction l with
  | nil => rfl
  | cons x xs ih =>
    have ih' := ih (fun y hy hpy => h y (by simp [hy]) hpy)
    by_cases hp : p x
    · rw [List.filter_cons_of_pos hp]
      unfold pairSumRec
      rw [ih']
      congr 1
      apply list_sum_map_filter
      intro y hy hpy
      exact (h y (by simp [hy]) hpy x).1
    · rw [List.filter_cons_of_neg (by simpa using hp)]
      rw [ih']
      have hz : (xs.map (fun y => g y x)).sum = 0 :=
        list_sum_map_zero _ _ (fun y _ =>
          (h x (by simp) (by simpa using hp) y).2)
      rw [show pairSumRec g (x :: xs)
          = (xs.map (fun y => g y x)).sum + pairSumRec g xs from rfl,
        hz, zero_add]

theorem binaryCharge_ne_zero_iff (c : Char) :
    binaryCharge c ≠ 0 ↔ c ∈ CHARGED_RES := by
  unfold binaryCharge CHARGED_RES
  by_cases h1 : c = 'D' <;> by_cases h2 : c = 'E' <;> by_cases h3 : c = 'K'
    <;> by_cases h4 : c = 'R' <;> simp_all

theorem binaryCharge_eq_zero_of_not_mem (s : List Char) (i : Nat)
    (h : i ∉ categPositions CHARGED_RES s) :
    binaryCharge (s.getD i ' ') = 0 := by
  by_cases hi : i < s.length
  · rw [mem_categPositions] at h
    push_neg at h
    by_contra hq
    exact (binaryCharge_ne_zero_iff _).mp hq |> h hi
  · have : s.getD i ' ' = ' ' := by
      rw [List.getD_eq_getElem?_getD, List.getElem?_eq_none (by omega)]
      rfl
    rw [this]
    decide

/-- Dropping uncharged positions from the pair sum changes nothing, so the
pair sum over `charged_res` equals the pair sum over all positions. -/
theorem scdFullSum_eq_range (rt : Nat → ℚ) (s : List Char) :
    scdFullSum rt s (categPositions CHARGED_RES s) =
      ∑ i ∈ Finset.range s.length, ∑ j ∈ Finset.range i,
        (binaryCharge (s.getD i ' ') : ℚ) * (binaryCharge (s.getD j ' ') : ℚ)
          * rt (i - j) := by
  rw [scdFullSum_eq_pairSumRec, ← pairSumRec_range]
  unfold categPositions
  apply pairSumRec_filter
  intro x hx hpx y
  have hq : binaryCharge (s.getD x ' ') = 0 := by
    apply binaryCharge_eq_zero_of_not_mem
    rw [mem_categPositions]
    rw [List.mem_range] at hx
    rintro ⟨-, hc⟩
    have hd := decide_eq_true hc
    rw [hpx] at hd
    exact Bool.noConfusion hd
  have hq0 : ((binaryCharge (s.getD x ' ') : ℚ)) = 0 := by exact_mod_cast hq
  constructor
  · rw [hq0]
    ring
  · rw [hq0]
    ring

/-- Changing the charge profile at one position `loc` changes the pairwise
double sum by exactly the single-position delta that `scd`'s incremental
branch accumulates. -/
theorem doubleSum_update (rt : Nat → ℚ) (n loc : Nat) (hloc : loc < n)
    (Q Qn : Nat → ℚ) (qe : ℚ)
    (hQn : ∀ i, Qn i = if i = loc then qe else Q i) :
    (∑ i ∈ Finset.range n, ∑ j ∈ Finset.range i, Qn i * Qn j * rt (i - j))
      = (∑ i ∈ Finset.range n, ∑ j ∈ Finset.range i, Q i * Q j * rt (i - j))
        + ∑ i ∈ Finset.range n,
            (if i = loc then 0
             else Q i * (qe - Q loc) * rt (Int.natAbs ((loc : Int) - (i : Int)))) := by
  rw [← sub_eq_iff_eq_add']
  rw [← Finset.sum_sub_distrib]
  have hinner : ∀ i ∈ Finset.range n,
      ((∑ j ∈ Finset.range i, Qn i * Qn j * rt (i - j))
        - ∑ j ∈ Finset.range i, Q i * Q j * rt (i - j))
      = (if i = loc then
           ∑ j ∈ Finset.range loc, (qe - Q loc) * Q j * rt (loc - j)
         else if loc < i then Q i * (qe - Q loc) * rt (i - loc) else 0) := by
    intro i hi
    by_cases hil : i = loc
    · subst hil
      rw [if_pos rfl, ← Finset.sum_sub_distrib]
      apply Finset.sum_congr rfl
      intro j hj
      rw [Finset.mem_range] at hj
      have hji : j ≠ i := by omega
      rw [hQn i, hQn j, if_pos rfl, if_neg hji]
      ring
    · rw [if_neg hil, ← Finset.sum_sub_distrib]
      by_cases hli : loc < i
      · rw [if_pos hli]
        have hterm : ∀ j ∈ Finset.range i,
            (Qn i * Qn j * rt (i - j) - Q i * Q j * rt (i - j))
              = if j = loc then Q i * (qe - Q loc) * rt (i - loc) else 0 := by
          intro j hj
          by_cases hjl : j = loc
          · subst hjl
            rw [if_pos rfl, hQn i, if_neg hil, hQn j, if_pos rfl]
            ring
          · rw [if_neg hjl, hQn i, if_neg hil, hQn j, if_neg hjl]
            ring
        rw [Finset.sum_congr rfl hterm, Finset.sum_ite_eq' (Finset.range i) loc]
        rw [if_pos (Finset.mem_range.mpr hli)]
      · rw [if_neg hli]
        apply Finset.sum_eq_zero
        intro j hj
        rw [Finset.mem_range] at hj
        have hjl : j ≠ loc := by omega
        rw [hQn i, if_neg hil, hQn j, if_neg hjl]
        ring
  rw [Finset.sum_congr rfl hinner]
  have hsplit : ∀ (h : Nat → ℚ), ∑ i ∈ Finset.range n, h i
      = (∑ i ∈ Finset.range loc, h i) + h loc
        + ∑ i ∈ Finset.Ico (loc + 1) n, h i := by
    intro h
    rw [Finset.range_eq_Ico,
      ← Finset.sum_Ico_consecutive _ (by omega : 0 ≤ loc + 1)
        (by omega : loc + 1 ≤ n),
      Finset.sum_Ico_succ_top (by omega : 0 ≤ loc), ← Finset.range_eq_Ico]
  rw [hsplit, hsplit (fun i =>
    if i = loc then 0
    else Q i * (qe - Q loc) * rt (Int.natAbs ((loc : Int) - (i : Int))))]
  have hlow : (∑ i ∈ Finset.range loc, (if i = loc then
      ∑ j ∈ Finset.range loc, (qe - Q loc) * Q j * rt (loc - j)
      else if loc < i then Q i * (qe - Q loc) * rt (i - loc) else 0)) = 0 := by
    apply Finset.sum_eq_zero
    intro i hi
    rw [Finset.mem_range] at hi
    rw [if_neg (by omega), if_neg (by omega)]
  have hmid : (if loc = loc then
      ∑ j ∈ Finset.range loc, (qe - Q loc) * Q j * rt (loc - j)
      else if loc < loc then Q loc * (qe - Q loc) * rt (loc - loc) else 0)
      = ∑ j ∈ Finset.range loc,
          (if j = loc then 0
           else Q j * (qe - Q loc) * rt (Int.natAbs ((loc : Int) - (j : Int)))) := by
    rw [if_pos rfl]
    apply Finset.sum_congr rfl
    intro j hj
    rw [Finset.mem_range] at hj
    rw [if_neg (by omega)]
    have habs : (Int.natAbs ((loc : Int) - (j : Int))) = loc - j := by omega
    rw [habs]
    ring
  have hhigh : (∑ i ∈ Finset.Ico (loc + 1) n, (if i = loc then
      ∑ j ∈ Finset.range loc, (qe - Q loc) * Q j * rt (loc - j)
      else if loc < i then Q i * (qe - Q loc) * rt (i - loc) else 0))
      = ∑ i ∈ Finset.Ico (loc + 1) n,
          (if i = loc then 0
           else Q i * (qe - Q loc) * rt (Int.natAbs ((loc : Int) - (i : Int)))) := by
    apply Finset.sum_congr rfl
    intro i hi
    rw [Finset.mem_Ico] at hi
    rw [if_neg (by omega), if_pos (by omega), if_neg (by omega)]
    have habs : (Int.natAbs ((loc : Int) - (i : Int))) = i - loc := by omega
    rw [habs]
  rw [hlow, hmid, hhigh, if_pos rfl]
  ring

theorem applyMut_charge_profile (s : List Char) (m : BasePointMutation)
    (hv : validMutation s m) (i : Nat) :
    ((binaryCharge ((applyMut s m.loc m.endAa).getD i ' ') : ℚ))
      = if i = m.loc then (binaryCharge m.endAa : ℚ)
        else (binaryCharge (s.getD i ' ') : ℚ) := by
  rw [applyMut_getD s m.loc m.endAa hv.1 i]
  split_ifs <;> rfl

/-- C1, scd part (helper): with the previous charged-position list and cached
scd value both correct for `s`, the incremental branch computes exactly the
from-scratch scd of the mutated sequence. -/
theorem scd_incremental_correct (rt : Nat → ℚ) (s : List Char)
    (m : BasePointMutation) (hv : validMutation s m) (hrt0 : rt 0 = 0) :
    scdFromPrev rt (applyMut s m.loc m.endAa)
        ((scdFresh rt s (categPositions CHARGED_RES s)).toOption)
        (categPositions CHARGED_RES s) (some m)
      = scdFresh rt (applyMut s m.loc m.endAa)
          (categPositions CHARGED_RES (applyMut s m.loc m.endAa)) := by
  obtain ⟨hloc, hstart, hne⟩ := hv
  have hlen : (applyMut s m.loc m.endAa).length = s.length :=
    applyMut_length s m.loc m.endAa hloc
  have hn : s.length ≠ 0 := by omega
  have hnq : ((s.length : ℚ)) ≠ 0 := by exact_mod_cast hn
  have hfresh : scdFresh rt s (categPositions CHARGED_RES s)
      = .ok (scdFullSum rt s (categPositions CHARGED_RES s) / (s.length : ℚ)) := by
    unfold scdFresh
    rw [if_neg hn]
  rw [hfresh]
  unfold scdFromPrev scdFresh
  rw [hlen, if_neg hn, if_neg hn]
  simp only [Except.toOption]
  have hDSn := scdFullSum_eq_range rt (applyMut s m.loc m.endAa)
  rw [hlen] at hDSn
  have hQn : ∀ i, ((binaryCharge ((applyMut s m.loc m.endAa).getD i ' ') : ℚ))
      = if i = m.loc then (binaryCharge m.endAa : ℚ)
        else (binaryCharge (s.getD i ' ') : ℚ) :=
    applyMut_charge_profile s m ⟨hloc, hstart, hne⟩
  have hqs : ((binaryCharge (s.getD m.loc ' ') : ℚ)) = (binaryCharge m.startAa : ℚ) := by
    rw [hstart]
  have hupdate := doubleSum_update rt s.length m.loc hloc
    (fun i => (binaryCharge (s.getD i ' ') : ℚ))
    (fun i => (binaryCharge ((applyMut s m.loc m.endAa).getD i ' ') : ℚ))
    (binaryCharge m.endAa : ℚ) hQn
  by_cases hq : binaryCharge m.startAa = binaryCharge m.endAa
  · rw [if_pos hq]
    have hzero : (∑ i ∈ Finset.range s.length,
        (if i = m.loc then 0
         else (binaryCharge (s.getD i ' ') : ℚ)
           * ((binaryCharge m.endAa : ℚ) - (binaryCharge (s.getD m.loc ' ') : ℚ))
           * rt (Int.natAbs ((m.loc : Int) - (i : Int))))) = 0 := by
      apply Finset.sum_eq_zero
      intro i _
      by_cases hil : i = m.loc
      · rw [if_pos hil]
      · rw [if_neg hil, hqs]
        have : ((binaryCharge m.endAa : ℚ)) - (binaryCharge m.startAa : ℚ) = 0 := by
          rw [← hq]
          ring
        rw [this]
        ring
    have hsum : scdFullSum rt (applyMut s m.loc m.endAa)
        (categPositions CHARGED_RES (applyMut s m.loc m.endAa))
        = scdFullSum rt s (categPositions CHARGED_RES s) := by
      rw [hDSn, scdFullSum_eq_range, hupdate, hzero, add_zero]
    rw [hsum]
  · rw [if_neg hq]
    congr 1
    rw [div_add_div_same]
    congr 1
    rw [hDSn, scdFullSum_eq_range, hupdate]
    congr 1
    have hfilter : (List.map
          (fun i => ((binaryCharge ((applyMut s m.loc m.endAa).getD i ' ') : ℚ)) *
              ((binaryCharge m.endAa : ℚ) - (binaryCharge m.startAa : ℚ)) *
            rt (Int.natAbs ((m.loc : Int) - (i : Int))))
          (categPositions CHARGED_RES s)).sum
        = ((List.range s.length).map
            (fun i => ((binaryCharge ((applyMut s m.loc m.endAa).getD i ' ') : ℚ)) *
              ((binaryCharge m.endAa : ℚ) - (binaryCharge m.startAa : ℚ)) *
            rt (Int.natAbs ((m.loc : Int) - (i : Int))))).sum := by
      unfold categPositions
      apply list_sum_map_filter
      intro x hx hpx
      by_cases hxl : x = m.loc
      · subst hxl
        have h0 : (Int.natAbs ((m.loc : Int) - (m.loc : Int))) = 0 := by omega
        rw [h0, hrt0]
        ring
      · have hnm : x ∉ categPositions CHARGED_RES s := by
          rw [mem_categPositions]
          rintro ⟨-, hc⟩
          have hd := decide_eq_true hc
          rw [hpx] at hd
          exact Bool.noConfusion hd
        have hq0 : binaryCharge (s.getD x ' ') = 0 :=
          binaryCharge_eq_zero_of_not_mem s x hnm
        rw [hQn x, if_neg hxl]
        have hq0' : ((binaryCharge (s.getD x ' ') : ℚ)) = 0 := by exact_mod_cast hq0
        rw [hq0']
        ring
    rw [hfilter, listSum_map_range]
    apply Finset.sum_congr rfl
    intro i hi
    by_cases hil : i = m.loc
    · subst hil
      rw [if_pos rfl]
      have h0 : (Int.natAbs ((m.loc : Int) - (m.loc : Int))) = 0 := by omega
      rw [h0, hrt0]
      ring
    · rw [if_neg hil, hQn i, if_neg hil]
      simp only [hqs]

-- # C1 helpers: kappa and omega

theorem categPositions_applyMut_of_iff (cat : List Char) (s : List Char)
    (m : BasePointMutation) (hv : validMutation s m)
    (hiff : m.startAa ∈ cat ↔ m.endAa ∈ cat) :
    categPositions cat (applyMut s m.loc m.endAa) = categPositions cat s := by
  have h := initCategFromPrev_correct cat s m hv
  have hd : decide (m.startAa ∈ cat) = decide (m.endAa ∈ cat) := by
    rw [decide_eq_decide]
    exact hiff
  simp only [initCategFromPrev, if_pos hd] at h
  exact h.symm

theorem charge_profile_applyMut_eq (s : List Char) (m : BasePointMutation)
    (hv : validMutation s m)
    (hq : binaryCharge m.startAa = binaryCharge m.endAa) (i : Nat) :
    binaryCharge ((applyMut s m.loc m.endAa).getD i ' ')
      = binaryCharge (s.getD i ' ') := by
  rw [applyMut_getD s m.loc m.endAa hv.1 i]
  by_cases hil : i = m.loc
  · rw [if_pos hil, hil, hv.2.1, hq]
  · rw [if_neg hil]

theorem mem_charged_iff_of_charge_eq (m : BasePointMutation)
    (hq : binaryCharge m.startAa = binaryCharge m.endAa) :
    m.startAa ∈ CHARGED_RES ↔ m.endAa ∈ CHARGED_RES := by
  rw [← binaryCharge_ne_zero_iff, ← binaryCharge_ne_zero_iff, hq]

theorem customKappaCalc_congr (rtq : ℚ → ℚ) (blob : Nat) (s t : List Char)
    (cs : List Nat) (hlen : s.length = t.length)
    (hq : ∀ i, binaryCharge (s.getD i ' ') = binaryCharge (t.getD i ' ')) :
    customKappaCalc rtq blob s cs = customKappaCalc rtq blob t cs := by
  unfold customKappaCalc
  rw [hlen]
  congr 1
  funext i
  rw [hq i]

/-- C1, custom_kappa part (helper): with the previous state correct and the
kappa value cached, the incremental path — returning the cached value when
the mutation preserves binary charge, recomputing on the maintained index
set otherwise — computes exactly the from-scratch kappa of the mutated
sequence. -/
theorem customKappa_incremental_correct (rtq : ℚ → ℚ) (blob : Nat)
    (s : List Char) (m : BasePointMutation) (hv : validMutation s m)
    (hok : (customKappaCalc rtq blob s (categPositions CHARGED_RES s)).isOk
      = true) :
    customKappaFromPrev rtq blob (applyMut s m.loc m.endAa)
        (initCategFromPrev CHARGED_RES (categPositions CHARGED_RES s) (some m))
        ((customKappaCalc rtq blob s (categPositions CHARGED_RES s)).toOption)
        (some m)
      = customKappaCalc rtq blob (applyMut s m.loc m.endAa)
          (categPositions CHARGED_RES (applyMut s m.loc m.endAa)) := by
  simp only [customKappaFromPrev]
  by_cases hq : binaryCharge m.startAa = binaryCharge m.endAa
  · rw [if_pos hq]
    obtain ⟨v, hvv⟩ : ∃ v,
        customKappaCalc rtq blob s (categPositions CHARGED_RES s)
          = .ok v := by
      cases hcase : customKappaCalc rtq blob s (categPositions CHARGED_RES s) with
      | ok v => exact ⟨v, rfl⟩
      | error e =>
        rw [hcase] at hok
        exact Bool.noConfusion hok
    rw [hvv]
    simp only [Except.toOption]
    rw [categPositions_applyMut_of_iff CHARGED_RES s m hv
      (mem_charged_iff_of_charge_eq m hq)]
    rw [customKappaCalc_congr rtq blob (applyMut s m.loc m.endAa) s
      (categPositions CHARGED_RES s) (applyMut_length s m.loc m.endAa hv.1)
      (charge_profile_applyMut_eq s m hv hq)]
    exact hvv.symm
  · rw [if_neg hq]
    rw [initCategFromPrev_correct CHARGED_RES s m hv]

theorem customOmegaCalc_congr (rtq : ℚ → ℚ) (blob : Nat) (s t : List Char)
    (cs : List Nat) (hlen : s.length = t.length) :
    customOmegaCalc rtq blob s cs = customOmegaCalc rtq blob t cs := by
  unfold customOmegaCalc
  rw [hlen]

/-- C1, custom_omega part (helper): analogous to kappa, with membership in
`CHARGED_RES + ["P"]` as the preserved category. -/
theorem customOmega_incremental_correct (rtq : ℚ → ℚ) (blob : Nat)
    (s : List Char) (m : BasePointMutation) (hv : validMutation s m)
    (hok : (customOmegaCalc rtq blob s (categPositions PROCHARGED_RES s)).isOk
      = true) :
    customOmegaFromPrev rtq blob (applyMut s m.loc m.endAa)
        (initCategFromPrev PROCHARGED_RES (categPositions PROCHARGED_RES s)
          (some m))
        ((customOmegaCalc rtq blob s (categPositions PROCHARGED_RES s)).toOption)
        (some m)
      = customOmegaCalc rtq blob (applyMut s m.loc m.endAa)
          (categPositions PROCHARGED_RES (applyMut s m.loc m.endAa)) := by
  simp only [customOmegaFromPrev]
  by_cases hq : decide (m.startAa ∈ PROCHARGED_RES)
      = decide (m.endAa ∈ PROCHARGED_RES)
  · rw [if_pos hq]
    obtain ⟨v, hvv⟩ : ∃ v,
        customOmegaCalc rtq blob s (categPositions PROCHARGED_RES s)
          = .ok v := by
      cases hcase : customOmegaCalc rtq blob s (categPositions PROCHARGED_RES s) with
      | ok v => exact ⟨v, rfl⟩
      | error e =>
        rw [hcase] at hok
        exact Bool.noConfusion hok
    rw [hvv]
    simp only [Except.toOption]
    rw [categPositions_applyMut_of_iff PROCHARGED_RES s m hv
      (by rw [← decide_eq_decide]; exact hq)]
    rw [customOmegaCalc_congr rtq blob (applyMut s m.loc m.endAa) s
      (categPositions PROCHARGED_RES s) (applyMut_length s m.loc m.endAa hv.1)]
    exact hvv.symm
  · rw [if_neg hq]
    rw [initCategFromPrev_correct PROCHARGED_RES s m hv]

-- # C4 helpers: dictionary bookkeeping and scan invariants

theorem dictUpdate_length {α : Type} (l : List (Nat × α)) (k : Nat) (v : α) :
    (dictUpdate l k v).length
      = if dictContains l k then l.length else l.length + 1 := by
  unfold dictUpdate
  split_ifs with h <;> simp

theorem dictContains_iff {α : Type} (l : List (Nat × α)) (k : Nat) :
    dictContains l k = true ↔ k ∈ l.map Prod.fst := by
  unfold dictContains
  rw [List.any_eq_true]
  constructor
  · rintro ⟨p, hp, hk⟩
    rw [List.mem_map]
    exact ⟨p, hp, by simpa using hk⟩
  · intro hk
    rw [List.mem_map] at hk
    obtain ⟨p, hp, hk⟩ := hk
    exact ⟨p, hp, by simpa using hk⟩

theorem dictUpdate_keys_of_contains {α : Type} (l : List (Nat × α)) (k : Nat)
    (v : α) (h : dictContains l k = true) :
    (dictUpdate l k v).map Prod.fst = l.map Prod.fst := by
  unfold dictUpdate
  rw [if_pos h, List.map_map]
  apply List.map_congr_left
  intro p _
  by_cases hp : p.1 = k
  · simp [hp]
  · simp [hp]

theorem dictUpdate_keys_nodup {α : Type} (l : List (Nat × α)) (k : Nat)
    (v : α) (h : (l.map Prod.fst).Nodup) :
    ((dictUpdate l k v).map Prod.fst).Nodup := by
  by_cases hc : dictContains l k
  · rw [dictUpdate_keys_of_contains l k v hc]
    exact h
  · unfold dictUpdate
    rw [if_neg hc, List.map_append]
    rw [List.nodup_append]
    refine ⟨h, List.nodup_singleton _, ?_⟩
    intro a ha hb
    simp only [List.map_cons, List.map_nil, List.mem_singleton] at hb
    rw [hb] at ha
    exact hc ((dictContains_iff l k).mpr ha)

/-- C4 core: the scanning loop of RandMultiChange.next_round_seqs keeps the
good dict within the good quota, the marginal dict within the marginal
quota, and both dicts keyed by distinct positions. -/
theorem scanMovesIG_invariant (cfg : ScanCfg) (moves : List (Nat × Char))
    (good neg : List (Nat × Char × ℚ))
    (hg : good.length ≤ cfg.goodSize) (hn : neg.length ≤ cfg.restSize)
    (hgk : (good.map Prod.fst).Nodup) (hnk : (neg.map Prod.fst).Nodup) :
    ((scanMovesIG cfg moves good neg).1.length ≤ cfg.goodSize
      ∧ ((scanMovesIG cfg moves good neg).1.map Prod.fst).Nodup)
    ∧ ((scanMovesIG cfg moves good neg).2.length ≤ cfg.restSize
      ∧ ((scanMovesIG cfg moves good neg).2.map Prod.fst).Nodup) := by
  induction moves generalizing good neg with
  | nil => exact ⟨⟨hg, hgk⟩, hn, hnk⟩
  | cons mv rest ih =>
    obtain ⟨i, res⟩ := mv
    simp only [scanMovesIG]
    split_ifs with h1 h2 h3 h4 h5 h6 h7 h8
    · exact ⟨⟨hg, hgk⟩, hn, hnk⟩
    · exact ih good neg hg hn hgk hnk
    · exact ih good neg hg hn hgk hnk
    · exact ih good neg hg hn hgk hnk
    · refine ih _ neg ?_ hn (dictUpdate_keys_nodup good i _ hgk) hnk
      rw [dictUpdate_length]
      split_ifs
      · exact hg
      · omega
    · exact ih good neg hg hn hgk hnk
    · exact ih good neg hg hn hgk hnk
    · refine ih good _ hg ?_ hgk (dictUpdate_keys_nodup neg i _ hnk)
      rw [dictUpdate_length]
      split_ifs with hcont
      · exact hn
      · rw [not_and_or] at h7
        rcases h7 with h7 | h7
        · exact absurd (by simpa using hcont) (by simpa using h7)
        · omega
    · exact ih good neg hg hn hgk hnk

/-- The iter_guess scan breaks as soon as the good quota is already met. -/
theorem scanMovesIG_stop (cfg : ScanCfg) (mv : Nat × Char)
    (rest : List (Nat × Char)) (good neg : List (Nat × Char × ℚ))
    (h : cfg.goodSize ≤ good.length) :
    scanMovesIG cfg (mv :: rest) good neg = (good, neg) := by
  obtain ⟨i, res⟩ := mv
  simp only [scanMovesIG]
  rw [if_pos h]

/-- The rand_mch.py scan never retains a marginal move when the marginal
quota is positive: its freshness test is inverted, so a new position is
always skipped while the dict is below quota — and it therefore stays empty
forever. -/
theorem randScan_neg_empty (cfg : ScanCfg) (moves : List (Nat × Char))
    (good : List (Nat × Char × ℚ)) (hrs : 0 < cfg.restSize) :
    (randScan cfg moves good []).2 = [] := by
  induction moves generalizing good with
  | nil => rfl
  | cons mv rest ih =>
    obtain ⟨i, res⟩ := mv
    simp only [randScan]
    split_ifs <;>
      first
        | rfl
        | exact ih good
        | exact ih _
        | simp_all [dictContains]

-- # C6/C7 helpers: error propagation at the scoring boundary

theorem runFeatsSkipFailures_error (feats : List (List Char → Except PyErr ℚ))
    (s : List Char) (e : PyErr)
    (h : runFeatsSkipFailures feats s = .error e) : e = .keyboardInterrupt := by
  induction feats with
  | nil => simp [runFeatsSkipFailures] at h
  | cons f fs ih =>
    simp only [runFeatsSkipFailures] at h
    cases hf : f s with
    | error e2 =>
      rw [hf] at h
      cases e2 with
      | keyboardInterrupt => exact (Except.error.inj h).symm
      | featureUndefined =>
        cases hrec : runFeatsSkipFailures fs s with
        | ok l => rw [hrec] at h; simp [Except.map] at h
        | error e3 =>
          rw [hrec] at h
          simp only [Except.map] at h
          rw [ih (Except.error.inj h ▸ hrec)]
      | other =>
        cases hrec : runFeatsSkipFailures fs s with
        | ok l => rw [hrec] at h; simp [Except.map] at h
        | error e3 =>
          rw [hrec] at h
          simp only [Except.map] at h
          rw [ih (Except.error.inj h ▸ hrec)]
    | ok v =>
      rw [hf] at h
      cases hrec : runFeatsSkipFailures fs s with
      | ok l => rw [hrec] at h; simp [Except.map] at h
      | error e3 =>
        rw [hrec] at h
        simp only [Except.map] at h
        rw [ih (Except.error.inj h ▸ hrec)]

theorem runFeatsSkipFailures_ok (feats : List (List Char → Except PyErr ℚ))
    (s : List Char) (h : ∀ f ∈ feats, f s ≠ .error .keyboardInterrupt) :
    runFeatsSkipFailures feats s
      = .ok (feats.map (fun f => (f s).toOption)) := by
  induction feats with
  | nil => rfl
  | cons f fs ih =>
    have ih' := ih (fun g hg => h g (by simp [hg]))
    simp only [runFeatsSkipFailures, List.map_cons]
    cases hf : f s with
    | error e2 =>
      cases e2 with
      | keyboardInterrupt => exact absurd hf (h f (by simp))
      | featureUndefined =>
        rw [ih']
        simp [Except.map, hf, Except.toOption]
      | other =>
        rw [ih']
        simp [Except.map, hf, Except.toOption]
    | ok v =>
      rw [ih']
      simp [Except.map, hf, Except.toOption]

theorem igScanCands_error (feats : List (List Char → Except PyErr ℚ))
    (pv tf : List ℚ) (cands : List (List Char))
    (acc : List Char × List ℚ × ℚ) (e : PyErr)
    (h : igScanCands feats pv tf cands acc = .error e) :
    e = .keyboardInterrupt := by
  induction cands generalizing acc with
  | nil => simp [igScanCands] at h
  | cons c rest ih =>
    simp only [igScanCands] at h
    cases hr : runFeats feats c with
    | error e2 =>
      rw [hr] at h
      cases e2 with
      | keyboardInterrupt => exact (Except.error.inj h).symm
      | featureUndefined => exact ih acc h
      | other => exact ih acc h
    | ok gf =>
      rw [hr] at h
      simp only [] at h
      by_cases hlt : sqrDistance pv gf tf < acc.2.2
      · rw [if_pos hlt] at h
        exact ih _ h
      · rw [if_neg hlt] at h
        exact ih acc h

theorem igSearchLoop_error (feats : List (List Char → Except PyErr ℚ))
    (pv : List ℚ) (nextRound : List Char → List (List Char)) (precision : ℚ)
    (tf : List ℚ) (fuel : Nat) :
    ∀ (q : List Char) (qf : List ℚ) (step : ℚ) (e : PyErr),
      igSearchLoop feats pv nextRound precision tf q qf step fuel
        = some (.error e) → e = .keyboardInterrupt := by
  induction fuel with
  | zero =>
    intro q qf step e h
    simp [igSearchLoop] at h
  | succ k ih =>
    intro q qf step e h
    simp only [igSearchLoop] at h
    by_cases hstep : precision < step
    · rw [if_pos hstep] at h
      cases hscan : igScanCands feats pv tf (nextRound q)
          (q, qf, sqrDistance pv qf tf) with
      | error e2 =>
        rw [hscan] at h
        have he : e2 = e := Except.error.inj (Option.some.inj h)
        rw [← he]
        exact igScanCands_error feats pv tf _ _ e2 hscan
      | ok triple =>
        rw [hscan] at h
        exact ih triple.1 triple.2.1 (sqrDistance pv triple.2.1 qf) e h
    · rw [if_neg hstep] at h
      exact absurd (Option.some.inj h) (by simp)

theorem igScanCands_all_fail (feats : List (List Char → Except PyErr ℚ))
    (pv tf : List ℚ) (cands : List (List Char))
    (acc : List Char × List ℚ × ℚ)
    (hfail : ∀ c ∈ cands, runFeats feats c = .error .featureUndefined) :
    igScanCands feats pv tf cands acc = .ok acc := by
  induction cands generalizing acc with
  | nil => rfl
  | cons c rest ih =>
    simp only [igScanCands]
    rw [hfail c (by simp)]
    exact ih acc (fun c2 hc2 => hfail c2 (by simp [hc2]))

/-- C6 core: if every candidate of the round fails feature evaluation with
the feature-undefined error, the driver finishes the round with the query
unchanged, measures a zero step size, and returns the query as a NORMAL
result on the next loop test. -/
theorem igSearch_all_fail (feats : List (List Char → Except PyErr ℚ))
    (pv : List ℚ) (nextRound : List Char → List (List Char)) (precision : ℚ)
    (tf : List ℚ) (q : List Char) (qf : List ℚ) (fuel : Nat)
    (hfail : ∀ c ∈ nextRound q, runFeats feats c = .error .featureUndefined)
    (hprec : 0 ≤ precision) :
    igSearchSimilar feats pv nextRound precision tf q qf (fuel + 2)
      = some (.ok q) := by
  unfold igSearchSimilar
  show igSearchLoop feats pv nextRound precision tf q qf (precision + 1)
    (fuel + 1 + 1) = some (.ok q)
  rw [igSearchLoop]
  rw [if_pos (by linarith : precision < precision + 1)]
  rw [igScanCands_all_fail feats pv tf (nextRound q) _ hfail]
  show igSearchLoop feats pv nextRound precision tf q qf
    (sqrDistance pv qf qf) (fuel + 1) = some (.ok q)
  rw [igSearchLoop, sqrDistance_self]
  rw [if_neg (by linarith : ¬ precision < 0)]

-- # Claim theorems

/-- Claim C2 (amended): for a valid query of length L, one round of the
exhaustive one-point strategy `BruteForce.next_round_seqs` yields exactly
L × 19 substitution candidates — one per (position, residue) move, with no
duplicate move — and does NOT yield the unmodified identity candidate (the
driver contributes it by initializing the round's best candidate to the
current sequence); the superseded `BruteForce._get_next_seqs` instead yields
L × 20 + 1 candidates including the query itself once per position. -/
theorem C2_exhaustive_one_point_round (query : List Char)
    (hval : ∀ c ∈ query, c ∈ AA_STRING) :
    (nextRoundSeqsBF query).length = query.length * 19
    ∧ nextRoundSeqsBF query
        = (bfMoves query).map (fun p => applyMut query p.1 p.2)
    ∧ (bfMoves query).Nodup
    ∧ query ∉ nextRoundSeqsBF query
    ∧ (getNextSeqsBF query).length = query.length * 20 + 1 :=
  ⟨nextRoundSeqsBF_length query hval, nextRoundSeqsBF_eq_map query,
   bfMoves_nodup query, query_not_mem_nextRoundSeqsBF query,
   getNextSeqsBF_length query⟩

/-- Claim C2 witness at the concrete query "AC". -/
theorem C2_exhaustive_one_point_round_witness :
    (∀ c ∈ ['A', 'C'], c ∈ AA_STRING)
    ∧ ((nextRoundSeqsBF ['A', 'C']).length = ['A', 'C'].length * 19
      ∧ nextRoundSeqsBF ['A', 'C']
          = (bfMoves ['A', 'C']).map (fun p => applyMut ['A', 'C'] p.1 p.2)
      ∧ (bfMoves ['A', 'C']).Nodup
      ∧ ['A', 'C'] ∉ nextRoundSeqsBF ['A', 'C']
      ∧ (getNextSeqsBF ['A', 'C']).length = ['A', 'C'].length * 20 + 1) :=
  ⟨by decide, C2_exhaustive_one_point_round ['A', 'C'] (by decide)⟩

/-- Claim C2 counterexample to the claim as stated: neither candidate
generator yields `L × 19 + 1` candidates — on the query "AC" the
iter_guess generator yields 38 (no identity) and the brute_force one 41
(identity plus 40 unfiltered substitutions). -/
theorem C2_counterexample :
    ((nextRoundSeqsBF ['A', 'C']).length ≠ 2 * 19 + 1)
    ∧ ((getNextSeqsBF ['A', 'C']).length ≠ 2 * 19 + 1) := by decide

/-- Claim C3: over a positive reference variance table, the normalized
squared distance vanishes on identical vectors, is symmetric, is
nonnegative, and (on length-aligned vectors) vanishes exactly on identical
vectors. -/
theorem C3_sqr_distance_properties (pv a b : List ℚ)
    (hpos : ∀ v ∈ pv, 0 < v) (ha : a.length = pv.length)
    (hb : b.length = pv.length) :
    sqrDistance pv a a = 0
    ∧ sqrDistance pv a b = sqrDistance pv b a
    ∧ 0 ≤ sqrDistance pv a b
    ∧ (sqrDistance pv a b = 0 ↔ a = b) :=
  ⟨sqrDistance_self pv a, sqrDistance_comm pv a b,
   sqrDistance_nonneg pv a b hpos, sqrDistance_eq_zero_iff pv a b hpos ha hb⟩

/-- Claim C3 witness at concrete vectors. -/
theorem C3_sqr_distance_properties_witness :
    ((∀ v ∈ [(1 : ℚ), 2], 0 < v)
      ∧ [(0 : ℚ), 3].length = [(1 : ℚ), 2].length
      ∧ [(1 : ℚ), 5].length = [(1 : ℚ), 2].length)
    ∧ (sqrDistance [1, 2] [0, 3] [0, 3] = 0
      ∧ sqrDistance [1, 2] [0, 3] [1, 5] = sqrDistance [1, 2] [1, 5] [0, 3]
      ∧ 0 ≤ sqrDistance [1, 2] [0, 3] [1, 5]
      ∧ (sqrDistance [1, 2] [0, 3] [1, 5] = 0 ↔ [(0 : ℚ), 3] = [1, 5])) :=
  ⟨⟨by decide, rfl, rfl⟩,
   C3_sqr_distance_properties [1, 2] [0, 3] [1, 5] (by decide) rfl rfl⟩

/-- Claim C8 (amended): `DistanceCalculator._init_with_csv` stores the parsed
variance table verbatim and performs no validation of its entries, so a
table containing a zero variance is accepted at construction time; the
positivity of the variances is the data file's responsibility, not the
constructor's. -/
theorem C8_no_variance_validation (table : List ℚ) :
    distCalcInitWithCsv table = Except.ok table := rfl

/-- Claim C8 counterexample to the claim as stated: construction SUCCEEDS on
a table whose only entry is a zero variance, instead of rejecting it. -/
theorem C8_counterexample :
    distCalcInitWithCsv [(0 : ℚ)] = Except.ok [(0 : ℚ)] := rfl

/-- Claim C9: for a valid point mutation and a previous extended sequence
whose charged / proline-or-charged index lists are the correct sorted scans,
the incrementally derived index lists equal the sorted full scans of the
mutated sequence (and are again sorted). -/
theorem C9_index_set_maintenance (s : List Char) (m : BasePointMutation)
    (hv : validMutation s m) :
    initCategFromPrev CHARGED_RES (categPositions CHARGED_RES s) (some m)
        = categPositions CHARGED_RES (applyMut s m.loc m.endAa)
    ∧ initCategFromPrev PROCHARGED_RES (categPositions PROCHARGED_RES s)
          (some m)
        = categPositions PROCHARGED_RES (applyMut s m.loc m.endAa)
    ∧ (categPositions CHARGED_RES (applyMut s m.loc m.endAa)).Sorted (· ≤ ·)
    ∧ (categPositions PROCHARGED_RES (applyMut s m.loc m.endAa)).Sorted
        (· ≤ ·) :=
  ⟨initCategFromPrev_correct CHARGED_RES s m hv,
   initCategFromPrev_correct PROCHARGED_RES s m hv,
   categPositions_sorted CHARGED_RES _, categPositions_sorted PROCHARGED_RES _⟩

/-- Claim C9 witness: mutate the charged residue D of "AD" into P (leaves
the charged category, stays proline-or-charged). -/
theorem C9_index_set_maintenance_witness :
    validMutation ['A', 'D'] ⟨'D', 1, 'P'⟩
    ∧ (initCategFromPrev CHARGED_RES
          (categPositions CHARGED_RES ['A', 'D']) (some ⟨'D', 1, 'P'⟩)
        = categPositions CHARGED_RES (applyMut ['A', 'D'] 1 'P')
      ∧ initCategFromPrev PROCHARGED_RES
            (categPositions PROCHARGED_RES ['A', 'D']) (some ⟨'D', 1, 'P'⟩)
          = categPositions PROCHARGED_RES (applyMut ['A', 'D'] 1 'P')
      ∧ (categPositions CHARGED_RES (applyMut ['A', 'D'] 1 'P')).Sorted (· ≤ ·)
      ∧ (categPositions PROCHARGED_RES (applyMut ['A', 'D'] 1 'P')).Sorted
          (· ≤ ·)) :=
  ⟨by decide, C9_index_set_maintenance ['A', 'D'] ⟨'D', 1, 'P'⟩ (by decide)⟩

/-- Claim C10: the builtin per-residue counts are correct: the fresh scan
counts occurrences, and the derived update (previous count, plus one if the
new residue is X, minus one if the replaced residue is X) equals the
occurrence count of the mutated sequence. -/
theorem C10_builtin_counts (s : List Char) (m : BasePointMutation) (aa : Char)
    (hv : validMutation s m) :
    builtinCount s aa = (s.count aa : Int)
    ∧ setBuiltinCountDerived (builtinCount s aa) none aa = (s.count aa : Int)
    ∧ setBuiltinCountDerived (builtinCount s aa) (some m) aa
        = ((applyMut s m.loc m.endAa).count aa : Int) := by
  have hcount : ∀ t : List Char, builtinCount t aa = (t.count aa : Int) := by
    intro t
    unfold builtinCount
    rw [List.count, List.countP_eq_length_filter]
    congr 1
  refine ⟨hcount s, hcount s, ?_⟩
  rw [setBuiltinCountDerived_correct s m aa hv, hcount _]

/-- Claim C10 witness: count of D in "ADA" before and after mutating
position 0 from A into D. -/
theorem C10_builtin_counts_witness :
    validMutation ['A', 'D', 'A'] ⟨'A', 0, 'D'⟩
    ∧ (builtinCount ['A', 'D', 'A'] 'D' = (['A', 'D', 'A'].count 'D' : Int)
      ∧ setBuiltinCountDerived (builtinCount ['A', 'D', 'A'] 'D') none 'D'
          = (['A', 'D', 'A'].count 'D' : Int)
      ∧ setBuiltinCountDerived (builtinCount ['A', 'D', 'A'] 'D')
            (some ⟨'A', 0, 'D'⟩) 'D'
          = ((applyMut ['A', 'D', 'A'] 0 'D').count 'D' : Int)) :=
  ⟨by decide, C10_builtin_counts ['A', 'D', 'A'] ⟨'A', 0, 'D'⟩ 'D' (by decide)⟩

/-- Claim C4 (amended): in the iter_guess_model scanning round, the loop
breaks as soon as the good quota is met (or the shuffled moves are
exhausted, the base case of `scanMovesIG`); starting from empty dicts the
good set never exceeds the good quota and the marginal set never exceeds
the marginal quota, each holding at most one residue per position.  When a
position is revisited the incoming residue REPLACES the stored one unless
the incoming candidate's distance-to-target exceeds the stored move's
recorded STEP SIZE (`guess_dist > moves[i][1]`, which stores step sizes) —
not whenever the incoming candidate scores worse.  In the superseded
rand_mch.py variant the marginal dict's freshness test is inverted, so with
a positive quota it stays empty. -/
theorem C4_scan_bookkeeping (cfg : ScanCfg) (moves : List (Nat × Char))
    (mv : Nat × Char) (rest : List (Nat × Char))
    (good neg : List (Nat × Char × ℚ)) (hstop : cfg.goodSize ≤ good.length)
    (hrs : 0 < cfg.restSize) :
    ((scanMovesIG cfg moves [] []).1.length ≤ cfg.goodSize
      ∧ ((scanMovesIG cfg moves [] []).1.map Prod.fst).Nodup)
    ∧ ((scanMovesIG cfg moves [] []).2.length ≤ cfg.restSize
      ∧ ((scanMovesIG cfg moves [] []).2.map Prod.fst).Nodup)
    ∧ scanMovesIG cfg (mv :: rest) good neg = (good, neg)
    ∧ (randScan cfg moves good []).2 = [] := by
  have hinv := scanMovesIG_invariant cfg moves [] [] (by simp) (by simp)
    (by simp) (by simp)
  exact ⟨hinv.1, hinv.2, scanMovesIG_stop cfg mv rest good neg hstop,
    randScan_neg_empty cfg moves good hrs⟩

/-- Claim C4 witness at a concrete configuration. -/
theorem C4_scan_bookkeeping_witness :
    ((⟨(fun _ => [some (0 : ℚ)]), [1], [10], [0], ['A'], 100, 1/10000, 2,
        14⟩ : ScanCfg).goodSize ≤ [(0, ('K', (81 : ℚ))), (1, ('D', 50))].length
      ∧ 0 < (⟨(fun _ => [some (0 : ℚ)]), [1], [10], [0], ['A'], 100, 1/10000,
        2, 14⟩ : ScanCfg).restSize)
    ∧ (((scanMovesIG ⟨(fun _ => [some (0 : ℚ)]), [1], [10], [0], ['A'], 100,
          1/10000, 2, 14⟩ [(0, 'K')] [] []).1.length ≤ 2
      ∧ ((scanMovesIG ⟨(fun _ => [some (0 : ℚ)]), [1], [10], [0], ['A'], 100,
          1/10000, 2, 14⟩ [(0, 'K')] [] []).1.map Prod.fst).Nodup)
      ∧ ((scanMovesIG ⟨(fun _ => [some (0 : ℚ)]), [1], [10], [0], ['A'], 100,
          1/10000, 2, 14⟩ [(0, 'K')] [] []).2.length ≤ 14
      ∧ ((scanMovesIG ⟨(fun _ => [some (0 : ℚ)]), [1], [10], [0], ['A'], 100,
          1/10000, 2, 14⟩ [(0, 'K')] [] []).2.map Prod.fst).Nodup)
      ∧ scanMovesIG ⟨(fun _ => [some (0 : ℚ)]), [1], [10], [0], ['A'], 100,
          1/10000, 2, 14⟩ [(1, 'C')]
          [(0, ('K', (81 : ℚ))), (1, ('D', 50))] []
        = ([(0, ('K', (81 : ℚ))), (1, ('D', 50))], [])
      ∧ (randScan ⟨(fun _ => [some (0 : ℚ)]), [1], [10], [0], ['A'], 100,
          1/10000, 2, 14⟩ [(0, 'K')]
          [(0, ('K', (81 : ℚ))), (1, ('D', 50))] []).2 = []) := by
  refine ⟨⟨by decide, by decide⟩, ?_⟩
  exact C4_scan_bookkeeping _ [(0, 'K')] (1, 'C') []
    [(0, ('K', (81 : ℚ))), (1, ('D', 50))] [] (by decide) (by decide)

/-- Claim C4 counterexample to "only the better-scoring residue at a
revisited position is kept": scanning the moves K then D at position 0 of
the query "A" (one feature, variance 1, target value 10, query value 0),
the K candidate has distance 1 and is recorded with step size 81; the D
candidate has the WORSE distance 16, which is compared against the stored
step size 81 and therefore replaces K. -/
theorem C4_counterexample :
    (scanMovesIG
      ⟨(fun s => if s = ['K'] then [some (9 : ℚ)]
        else if s = ['D'] then [some 6] else [some 0]),
       [1], [10], [0], ['A'], 100, 1/10000, 2, 14⟩
      [(0, 'K'), (0, 'D')] [] []).1 = [(0, ('D', 36))]
    ∧ sqrDistance [1] [6] [10] > sqrDistance [1] [9] [10] := by
  constructor
  · simp +decide only [scanMovesIG, applyMut, sqrDistance, dictContains,
      dictGetD, dictUpdate]
    norm_num
  · norm_num [sqrDistance]

/-- Claim C5: the randomized multi-point search with a non-None seed is a
function of (seed, target, query) alone — `random.seed(self.seed + target)`
overwrites the stream state, so two runs from arbitrary (and arbitrarily
different) ambient stream states produce identical results, and in
particular two runs of the same call are identical. -/
theorem C5_seeded_determinism (R : Type)
    (shuffleFn : R → List (Nat × Char) → (List (Nat × Char) × R))
    (seedFn : List Char → R) (featsOf : List Char → List (Option ℚ))
    (pv : List ℚ) (sd query target : List Char) (g0 g0' : R)
    (precision : ℚ) (goodSize restSize fuel : Nat) :
    randSearchSimilar R shuffleFn seedFn featsOf pv (some sd) query target
        g0 precision goodSize restSize fuel
      = randSearchSimilar R shuffleFn seedFn featsOf pv (some sd) query
        target g0' precision goodSize restSize fuel := rfl

/-- Claim C6 (amended): when every candidate of a round fails feature
evaluation with the feature-undefined error, the iterative driver does not
raise an all-candidates-undefined error and does not loop forever: the
round keeps the current sequence as its winner, the step size is then 0, so
with a nonnegative precision the loop exits and the driver returns the
unchanged query as a NORMAL result. -/
theorem C6_all_fail_returns_query
    (feats : List (List Char → Except PyErr ℚ)) (pv : List ℚ)
    (nextRound : List Char → List (List Char)) (precision : ℚ)
    (tf : List ℚ) (q : List Char) (qf : List ℚ) (fuel : Nat)
    (hfail : ∀ c ∈ nextRound q, runFeats feats c = .error .featureUndefined)
    (hprec : 0 ≤ precision) :
    igSearchSimilar feats pv nextRound precision tf q qf (fuel + 2)
      = some (.ok q) :=
  igSearch_all_fail feats pv nextRound precision tf q qf fuel hfail hprec

/-- Claim C6 witness: a single feature defined only on the query "A"; all 19
candidates of the exhaustive round fail, and the search returns "A"
normally. -/
theorem C6_all_fail_returns_query_witness :
    ((∀ c ∈ nextRoundSeqsBF ['A'],
        runFeats [fun s => if s = ['A'] then Except.ok (0 : ℚ)
          else Except.error PyErr.featureUndefined] c
          = Except.error PyErr.featureUndefined)
      ∧ (0 : ℚ) ≤ 1/10000)
    ∧ igSearchSimilar
        [fun s => if s = ['A'] then Except.ok (0 : ℚ)
          else Except.error PyErr.featureUndefined]
        [1] nextRoundSeqsBF (1/10000) [1] ['A'] [(0 : ℚ)] (0 + 2)
        = some (.ok ['A']) := by
  have hfail : ∀ c ∈ nextRoundSeqsBF ['A'],
      runFeats [fun s => if s = ['A'] then Except.ok (0 : ℚ)
        else Except.error PyErr.featureUndefined] c
        = Except.error PyErr.featureUndefined := by
    intro c hc
    have hne : ¬ (c = ['A']) := by
      intro h
      rw [h] at hc
      exact query_not_mem_nextRoundSeqsBF ['A'] hc
    simp [runFeats, hne]
  refine ⟨⟨hfail, by norm_num⟩, ?_⟩
  exact C6_all_fail_returns_query _ [1] nextRoundSeqsBF (1/10000) [1] ['A']
    [(0 : ℚ)] 0 hfail (by norm_num)

/-- Claim C6 counterexample to the claim as stated: at a concrete input
where every candidate raises the feature-undefined error, the driver
returns the query as a normal `ok` result — it does not fail with an
all-candidates-undefined error (no such error exists in the code). -/
theorem C6_counterexample :
    igSearchSimilar
      [fun s => if s = ['A'] then Except.ok (0 : ℚ)
        else Except.error PyErr.featureUndefined]
      [1] nextRoundSeqsBF (1/10000) [1] ['A'] [(0 : ℚ)] 2
      = some (.ok ['A']) := by
  have hfail : ∀ c ∈ nextRoundSeqsBF ['A'],
      runFeats [fun s => if s = ['A'] then Except.ok (0 : ℚ)
        else Except.error PyErr.featureUndefined] c
        = Except.error PyErr.featureUndefined := by
    intro c hc
    have hne : ¬ (c = ['A']) := by
      intro h
      rw [h] at hc
      exact query_not_mem_nextRoundSeqsBF ['A'] hc
    simp [runFeats, hne]
  exact igSearch_all_fail _ [1] nextRoundSeqsBF (1/10000) [1] ['A'] [(0 : ℚ)]
    0 hfail (by norm_num)

/-- Claim C7 (amended): at the round-scoring boundary only
`KeyboardInterrupt` escapes; the feature-undefined error AND every other
exception raised while scoring a candidate are caught and converted into
skipping that candidate (a `None` entry in `run_feats_skip_failures`, a
`continue` in the driver's scan), because both boundaries use a bare
`except`. -/
theorem C7_catch_boundary (feats : List (List Char → Except PyErr ℚ))
    (s : List Char) (e : PyErr) (pv tf : List ℚ)
    (nextRound : List Char → List (List Char)) (precision : ℚ)
    (q : List Char) (qf : List ℚ) (fuel : Nat) (e2 : PyErr) :
    (runFeatsSkipFailures feats s = .error e → e = .keyboardInterrupt)
    ∧ ((∀ f ∈ feats, f s ≠ .error .keyboardInterrupt) →
        runFeatsSkipFailures feats s
          = .ok (feats.map (fun f => (f s).toOption)))
    ∧ (igSearchSimilar feats pv nextRound precision tf q qf fuel
          = some (.error e2) → e2 = .keyboardInterrupt) :=
  ⟨runFeatsSkipFailures_error feats s e,
   runFeatsSkipFailures_ok feats s,
   fun h => igSearchLoop_error feats pv nextRound precision tf fuel q qf
     (precision + 1) e2 h⟩

/-- Claim C7 witness: one feature that always raises a non-interrupt,
non-feature-undefined error; it is skipped (a `None` entry), not
propagated. -/
theorem C7_catch_boundary_witness :
    (∀ f ∈ ([fun _ => Except.error PyErr.other] :
        List (List Char → Except PyErr ℚ)),
      f ['A'] ≠ Except.error PyErr.keyboardInterrupt)
    ∧ runFeatsSkipFailures
        ([fun _ => Except.error PyErr.other] :
          List (List Char → Except PyErr ℚ)) ['A']
        = Except.ok [(none : Option ℚ)] := by
  have hni : ∀ f ∈ ([fun _ => Except.error PyErr.other] :
      List (List Char → Except PyErr ℚ)),
      f ['A'] ≠ Except.error PyErr.keyboardInterrupt := by
    intro f hf
    rw [List.mem_singleton] at hf
    rw [hf]
    intro h
    exact PyErr.noConfusion (Except.error.inj h)
  refine ⟨hni, ?_⟩
  have h := (C7_catch_boundary
    ([fun _ => Except.error PyErr.other] :
      List (List Char → Except PyErr ℚ)) ['A'] PyErr.keyboardInterrupt
    [] [] (fun _ => []) 0 [] [] 0 PyErr.keyboardInterrupt).2.1 hni
  rw [h]
  rfl

/-- Claim C7 counterexample to the claim as stated ("every other error
propagates uncaught"): a feature raising a generic non-feature-undefined
error is converted into a skipped `None` entry instead of propagating. -/
theorem C7_counterexample :
    runFeatsSkipFailures
        ([fun _ => Except.error PyErr.other] :
          List (List Char → Except PyErr ℚ)) ['A']
      = Except.ok [(none : Option ℚ)] := by
  rfl

/-- Claim C1: for a valid sequence, a valid point mutation, and the features
with incremental forms (scd, custom_kappa, custom_omega), the value computed
incrementally through a `BaseSeqRepr` pairing the previous sequence's cached
extended state (correct index lists, the feature's value already cached)
with the mutation equals the value computed from scratch on the mutated
sequence.  The equality is exact for every square-root function with
`sqrt 0 = 0` — in particular for the float `sqrt` shared by both code paths
— hence holds within (indeed, without) floating-point tolerance. -/
theorem C1_incremental_full_equivalence (rt : Nat → ℚ) (rtq : ℚ → ℚ)
    (blob : Nat) (s : List Char) (m : BasePointMutation)
    (hv : validMutation s m) (hrt0 : rt 0 = 0)
    (hkap : (customKappaCalc rtq blob s
      (categPositions CHARGED_RES s)).isOk = true)
    (home : (customOmegaCalc rtq blob s
      (categPositions PROCHARGED_RES s)).isOk = true) :
    scdFromPrev rt (applyMut s m.loc m.endAa)
        ((scdFresh rt s (categPositions CHARGED_RES s)).toOption)
        (categPositions CHARGED_RES s) (some m)
      = scdFresh rt (applyMut s m.loc m.endAa)
          (categPositions CHARGED_RES (applyMut s m.loc m.endAa))
    ∧ customKappaFromPrev rtq blob (applyMut s m.loc m.endAa)
        (initCategFromPrev CHARGED_RES (categPositions CHARGED_RES s)
          (some m))
        ((customKappaCalc rtq blob s (categPositions CHARGED_RES s)).toOption)
        (some m)
      = customKappaCalc rtq blob (applyMut s m.loc m.endAa)
          (categPositions CHARGED_RES (applyMut s m.loc m.endAa))
    ∧ customOmegaFromPrev rtq blob (applyMut s m.loc m.endAa)
        (initCategFromPrev PROCHARGED_RES (categPositions PROCHARGED_RES s)
          (some m))
        ((customOmegaCalc rtq blob s
          (categPositions PROCHARGED_RES s)).toOption)
        (some m)
      = customOmegaCalc rtq blob (applyMut s m.loc m.endAa)
          (categPositions PROCHARGED_RES (applyMut s m.loc m.endAa)) :=
  ⟨scd_incremental_correct rt s m hv hrt0,
   customKappa_incremental_correct rtq blob s m hv hkap,
   customOmega_incremental_correct rtq blob s m hv home⟩

/-- Claim C1 witness: the sequence "ADKA" with its first residue mutated
into E (a charge-changing, category-changing mutation), with the identity
functions standing in for the square roots. -/
theorem C1_incremental_full_equivalence_witness :
    (validMutation ['A', 'D', 'K', 'A'] ⟨'A', 0, 'E'⟩
      ∧ (fun n : Nat => (n : ℚ)) 0 = 0
      ∧ (customKappaCalc (fun x => x) 5 ['A', 'D', 'K', 'A']
          (categPositions CHARGED_RES ['A', 'D', 'K', 'A'])).isOk = true
      ∧ (customOmegaCalc (fun x => x) 5 ['A', 'D', 'K', 'A']
          (categPositions PROCHARGED_RES ['A', 'D', 'K', 'A'])).isOk = true)
    ∧ (scdFromPrev (fun n : Nat => (n : ℚ))
          (applyMut ['A', 'D', 'K', 'A'] 0 'E')
          ((scdFresh (fun n : Nat => (n : ℚ)) ['A', 'D', 'K', 'A']
            (categPositions CHARGED_RES ['A', 'D', 'K', 'A'])).toOption)
          (categPositions CHARGED_RES ['A', 'D', 'K', 'A'])
          (some ⟨'A', 0, 'E'⟩)
        = scdFresh (fun n : Nat => (n : ℚ))
            (applyMut ['A', 'D', 'K', 'A'] 0 'E')
            (categPositions CHARGED_RES (applyMut ['A', 'D', 'K', 'A'] 0 'E'))
      ∧ customKappaFromPrev (fun x => x) 5 (applyMut ['A', 'D', 'K', 'A'] 0 'E')
          (initCategFromPrev CHARGED_RES
            (categPositions CHARGED_RES ['A', 'D', 'K', 'A'])
            (some ⟨'A', 0, 'E'⟩))
          ((customKappaCalc (fun x => x) 5 ['A', 'D', 'K', 'A']
            (categPositions CHARGED_RES ['A', 'D', 'K', 'A'])).toOption)
          (some ⟨'A', 0, 'E'⟩)
        = customKappaCalc (fun x => x) 5 (applyMut ['A', 'D', 'K', 'A'] 0 'E')
            (categPositions CHARGED_RES (applyMut ['A', 'D', 'K', 'A'] 0 'E'))
      ∧ customOmegaFromPrev (fun x => x) 5 (applyMut ['A', 'D', 'K', 'A'] 0 'E')
          (initCategFromPrev PROCHARGED_RES
            (categPositions PROCHARGED_RES ['A', 'D', 'K', 'A'])
            (some ⟨'A', 0, 'E'⟩))
          ((customOmegaCalc (fun x => x) 5 ['A', 'D', 'K', 'A']
            (categPositions PROCHARGED_RES ['A', 'D', 'K', 'A'])).toOption)
          (some ⟨'A', 0, 'E'⟩)
        = customOmegaCalc (fun x => x) 5 (applyMut ['A', 'D', 'K', 'A'] 0 'E')
            (categPositions PROCHARGED_RES
              (applyMut ['A', 'D', 'K', 'A'] 0 'E'))) := by
  have h1 : validMutation ['A', 'D', 'K', 'A'] ⟨'A', 0, 'E'⟩ := by decide
  have h2 : (fun n : Nat => (n : ℚ)) 0 = 0 := by norm_num
  have h3 : (customKappaCalc (fun x => x) 5 ['A', 'D', 'K', 'A']
      (categPositions CHARGED_RES ['A', 'D', 'K', 'A'])).isOk = true := by
    have hcs : categPositions CHARGED_RES ['A', 'D', 'K', 'A'] = [1, 2] := by
      decide
    unfold customKappaCalc
    rw [hcs]
    unfold customKappaBody
    norm_num [pairwiseList, Except.isOk, Except.toBool]
  have h4 : (customOmegaCalc (fun x => x) 5 ['A', 'D', 'K', 'A']
      (categPositions PROCHARGED_RES ['A', 'D', 'K', 'A'])).isOk = true := by
    have hcs : categPositions PROCHARGED_RES ['A', 'D', 'K', 'A'] = [1, 2] := by
      decide
    unfold customOmegaCalc
    rw [hcs]
    unfold customOmegaBody
    norm_num [pairwiseList, Except.isOk, Except.toBool]
  exact ⟨⟨h1, h2, h3, h4⟩,
    C1_incremental_full_equivalence (fun n : Nat => (n : ℚ)) (fun x => x) 5
      ['A', 'D', 'K', 'A'] ⟨'A', 0, 'E'⟩ h1 h2 h3 h4⟩
